import Mathlib

/-!
Verification development for the micro-classificador pipeline
(`microcore/utils.py`, `microcore/catalog_loader.py`, `microcore/pipeline.py`).

The Python code is shallowly embedded: dataframes become lists of records,
pandas NaN cells become `Option`, machine floats that only flow through
comparisons and assignments become `ℚ`, and the scikit-learn TF-IDF cosine
similarity (an external library) is abstracted as a similarity-function
parameter.  The character model for Python's `str.lower`, `unicodedata`
accent stripping and the `\w`/`\s` regex classes covers ASCII plus the
Latin accented letters used by the repository's Portuguese vocabulary.
-/

namespace Micro

/-! ## Character model -/

/-- Whitespace characters of Python's `\s` class and `str.strip`. -/
def pyWsChars : List Char := [' ', '\t', '\n', '\r', '\x0b', '\x0c']

def isPySpace (c : Char) : Bool := pyWsChars.contains c

/-- Generic finite character translation table: first matching key wins,
unmatched characters map to themselves. -/
def tableMap (t : List (Char × Char)) (c : Char) : Char :=
  match t.find? (fun p => p.1 == c) with
  | some p => p.2
  | none => c

/-- Accented Latin letters and their NFKD base letters (same case), modelling
`strip_accents` in `utils.py`: NFKD decomposition followed by removal of
combining marks sends each of these to its base letter. -/
def accentTable : List (Char × Char) :=
  [('á', 'a'), ('à', 'a'), ('â', 'a'), ('ã', 'a'), ('ä', 'a'), ('å', 'a'),
   ('é', 'e'), ('è', 'e'), ('ê', 'e'), ('ë', 'e'),
   ('í', 'i'), ('ì', 'i'), ('î', 'i'), ('ï', 'i'),
   ('ó', 'o'), ('ò', 'o'), ('ô', 'o'), ('õ', 'o'), ('ö', 'o'),
   ('ú', 'u'), ('ù', 'u'), ('û', 'u'), ('ü', 'u'),
   ('ç', 'c'), ('ñ', 'n'), ('ý', 'y'),
   ('Á', 'A'), ('À', 'A'), ('Â', 'A'), ('Ã', 'A'), ('Ä', 'A'), ('Å', 'A'),
   ('É', 'E'), ('È', 'E'), ('Ê', 'E'), ('Ë', 'E'),
   ('Í', 'I'), ('Ì', 'I'), ('Î', 'I'), ('Ï', 'I'),
   ('Ó', 'O'), ('Ò', 'O'), ('Ô', 'O'), ('Õ', 'O'), ('Ö', 'O'),
   ('Ú', 'U'), ('Ù', 'U'), ('Û', 'U'), ('Ü', 'U'),
   ('Ç', 'C'), ('Ñ', 'N'), ('Ý', 'Y')]

/-- Free-standing combining marks removed by `strip_accents`
(`unicodedata.combining ch` nonzero). -/
def combiningChars : List Char :=
  ['̀', '́', '̂', '̃', '̈', '̧']

def isCombining (c : Char) : Bool := combiningChars.contains c

def deaccentChar (c : Char) : Char := tableMap accentTable c

/-- Model of `strip_accents` from `utils.py`: decompose accented letters to
their base letter and drop free-standing combining marks. -/
def stripAccentsL (l : List Char) : List Char :=
  (l.map deaccentChar).filter (fun c => !(isCombining c))

/-- Case table for Python's `str.lower` over the modelled alphabet. -/
def lowerTable : List (Char × Char) :=
  [('A', 'a'), ('B', 'b'), ('C', 'c'), ('D', 'd'), ('E', 'e'), ('F', 'f'),
   ('G', 'g'), ('H', 'h'), ('I', 'i'), ('J', 'j'), ('K', 'k'), ('L', 'l'),
   ('M', 'm'), ('N', 'n'), ('O', 'o'), ('P', 'p'), ('Q', 'q'), ('R', 'r'),
   ('S', 's'), ('T', 't'), ('U', 'u'), ('V', 'v'), ('W', 'w'), ('X', 'x'),
   ('Y', 'y'), ('Z', 'z'),
   ('Á', 'á'), ('À', 'à'), ('Â', 'â'), ('Ã', 'ã'), ('Ä', 'ä'), ('Å', 'å'),
   ('É', 'é'), ('È', 'è'), ('Ê', 'ê'), ('Ë', 'ë'),
   ('Í', 'í'), ('Ì', 'ì'), ('Î', 'î'), ('Ï', 'ï'),
   ('Ó', 'ó'), ('Ò', 'ò'), ('Ô', 'ô'), ('Õ', 'õ'), ('Ö', 'ö'),
   ('Ú', 'ú'), ('Ù', 'ù'), ('Û', 'û'), ('Ü', 'ü'),
   ('Ç', 'ç'), ('Ñ', 'ñ'), ('Ý', 'ý')]

def pyLowerChar (c : Char) : Char := tableMap lowerTable c

def pyLowerL (l : List Char) : List Char := l.map pyLowerChar

/-- Python regex `\w` over the modelled alphabet (ASCII alphanumerics and
underscore; every modelled accented letter is already decomposed before this
class is consulted inside `norm_text`). -/
def isWordChar (c : Char) : Bool :=
  (('a' ≤ c && c ≤ 'z') || ('A' ≤ c && c ≤ 'Z') || ('0' ≤ c && c ≤ '9') || c == '_')

/-- Characters kept by `re.sub(r"[^\w\s,.-]", " ", t)`: everything else
becomes a space. -/
def keepChar (c : Char) : Bool :=
  isWordChar c || isPySpace c || c == ',' || c == '.' || c == '-'

/-- Model of `re.sub(r"\s+", " ", t)`: each maximal whitespace run becomes a
single space. -/
def collapseRuns : List Char → List Char
  | [] => []
  | c :: rest =>
    match rest with
    | [] => [if isPySpace c then ' ' else c]
    | d :: _ =>
      if isPySpace c && isPySpace d then collapseRuns rest
      else (if isPySpace c then ' ' else c) :: collapseRuns rest

/-- Removes trailing whitespace. -/
def stripTrailing : List Char → List Char
  | [] => []
  | c :: rest =>
    match stripTrailing rest with
    | [] => if isPySpace c then [] else [c]
    | r => c :: r

/-- Model of Python `str.strip()`. -/
def pyStripL (l : List Char) : List Char :=
  stripTrailing (l.dropWhile isPySpace)

def pyStrip (s : String) : String := String.mk (pyStripL s.data)

def pyLower (s : String) : String := String.mk (pyLowerL s.data)

/-- Model of `norm_text` from `utils.py`: strip accents, lower-case, replace
characters outside word/whitespace/comma/period/hyphen with a space, collapse
whitespace runs, trim. -/
def normTextL (l : List Char) : List Char :=
  pyStripL (collapseRuns ((pyLowerL (stripAccentsL l)).map
    (fun c => if keepChar c then c else ' ')))

def normText (s : String) : String := String.mk (normTextL s.data)

/-- Model of `safe_lower` from `utils.py` on strings: `s.lower().strip()`. -/
def safeLower (s : String) : String := pyStrip (pyLower s)

/-- Model of the pandas idiom `.str.strip().str.lower()` used throughout
`pipeline.py`. -/
def stripLower (s : String) : String := pyLower (pyStrip s)

/-! ## The `_strip_loja_prefix` helper of `pipeline.py`

Models `re.sub` with the anchored pattern
`^\s*(?:lojas?|postos?|est[úu]dios?|empresas?|serviços?)\s+(?:de|da|do|das|dos)?\s*`
under `re.IGNORECASE`: optional whitespace, a noun alternative (the optional
trailing `s` is tried greedily first), at least one whitespace, an optional
preposition tried in alternation order `de, da, do, das, dos` (no boundary
required after it), then optional whitespace. -/

/-- Drops `pat` (given lower-case) from the front of `l`, comparing
case-insensitively; returns the remainder on success. -/
def dropCI : List Char → List Char → Option (List Char)
  | [], rest => some rest
  | _ :: _, [] => none
  | p :: ps, c :: cs => if pyLowerChar c == p then dropCI ps cs else none

/-- Noun alternatives of the pattern in the order the regex engine tries
them (`s`-variant first inside each `lojas?`-style alternative). -/
def ljNouns : List (List Char) :=
  ["lojas".data, "loja".data, "postos".data, "posto".data,
   "estúdios".data, "estúdio".data, "estudios".data, "estudio".data,
   "empresas".data, "empresa".data, "serviços".data, "serviço".data]

/-- Preposition alternatives in regex alternation order. -/
def ljPreps : List (List Char) := ["de".data, "da".data, "do".data, "das".data, "dos".data]

/-- After the noun and its mandatory whitespace: `\s+`, the optional
preposition, then `\s*`. -/
def ljAfterNoun (rest : List Char) : List Char :=
  let r2 := rest.dropWhile isPySpace
  let r3 := match ljPreps.findSome? (fun p => dropCI p r2) with
            | some r => r
            | none => r2
  r3.dropWhile isPySpace

/-- Tries the noun alternatives in order; a noun only matches when followed
by at least one whitespace character. -/
def ljTryNouns : List (List Char) → List Char → Option (List Char)
  | [], _ => none
  | n :: ns, l =>
    match dropCI n l with
    | some rest =>
      if rest.head?.any isPySpace then some (ljAfterNoun rest)
      else ljTryNouns ns l
    | none => ljTryNouns ns l

/-- Whole-pattern match at the start of the string; returns the remainder
after the matched span. -/
def ljMatch (l : List Char) : Option (List Char) :=
  ljTryNouns ljNouns (l.dropWhile isPySpace)

/-- Model of `_strip_loja_prefix` from `pipeline.py` (string inputs): strip,
remove the anchored store/shop prefix if present, strip again, and fall back
to the stripped text when the removal leaves nothing. -/
def stripLoja (value : String) : String :=
  let text := pyStrip value
  if text = "" then text
  else
    match ljMatch text.data with
    | some rest =>
      let cleaned := pyStrip (String.mk rest)
      if cleaned = "" then text else cleaned
    | none => text

/-! ## Data model

A pandas row of `process_dataframe` becomes a record; columns that may hold
NaN (the merge payload, `acao`, `fonte`, `confianca`, `_nova_contains`,
`SubCat_Intermediaria`) become `Option` fields. -/

/-- One catalog row as produced by `catalog_loader.py`:
`['SubCat Original', 'Nova SubCat', 'categoria_oficial', 'k_original',
'k_nova', 'k_categoria']`. -/
structure CatEntry where
  subcatOriginal : String
  novaSubCat : String
  categoriaOficial : String
  kOriginal : String
  kNova : String
  kCategoria : String
deriving DecidableEq, Repr

/-- One input row of `df_in` (the essential columns; absent columns default
to the empty string in the source). -/
structure RowIn where
  id : String
  nome : String
  endereco : String
  categoria : String
  subcat : String
deriving DecidableEq, Repr

/-- One working row of the pipeline's dataframe after the preparation step. -/
structure Row where
  id : String
  nome : String
  endereco : String
  categoria : String
  subcat : String
  catOriginal : String
  subcatOriginal : String
  kSubcatIn : String
  payload : Option CatEntry := none
  novaContains : Option String := none
  acao : Option String := none
  fonte : Option String := none
  confianca : Option ℚ := none
  subcatIntermediaria : Option String := none
deriving DecidableEq, Repr

/-! ## Generic helpers -/

/-- First-occurrence deduplication by a key, modelling
`DataFrame.drop_duplicates` (and, with `k := id`, `pandas.unique`). -/
def eraseDupsBy {α β : Type} [DecidableEq β] (k : α → β) : List α → List α
  | [] => []
  | a :: l => a :: (eraseDupsBy k l).filter (fun b => k b != k a)

/-- Lookup in a Python `dict` built from a pair list: the last insertion for
a key wins. -/
def pyDict (ps : List (String × String)) (k : String) : Option String :=
  (ps.reverse.find? (fun p => p.1 == k)).map Prod.snd

def dropDupPairs (ps : List (String × String)) : List (String × String) :=
  eraseDupsBy id ps

/-- `dict(mapping_df[["k_nova","categoria_oficial"]].drop_duplicates().values)`. -/
def subcatNormToCat (mapping : List CatEntry) : String → Option String :=
  pyDict (dropDupPairs (mapping.map (fun e => (e.kNova, e.categoriaOficial))))

/-- `dict(mapping_df[["k_original","Nova SubCat"]].drop_duplicates().values)`. -/
def origNormToNew (mapping : List CatEntry) : String → Option String :=
  pyDict (dropDupPairs (mapping.map (fun e => (e.kOriginal, e.novaSubCat))))

/-- `dict(mapping_df[["k_original","k_nova"]].drop_duplicates().values)`. -/
def origNormToKNova (mapping : List CatEntry) : String → Option String :=
  pyDict (dropDupPairs (mapping.map (fun e => (e.kOriginal, e.kNova))))

/-- Similarity oracle abstracting the scikit-learn TF-IDF cosine model:
given the fitted vocabulary, a query and one vocabulary term, it returns
their cosine similarity.  `_build_tfidf_index` and the vector algebra live
inside this parameter; the rest of `_semantic_match` is modelled below. -/
abbrev SimFun := List String → String → String → ℚ

/-- Model of `_semantic_match` from `pipeline.py`: one similarity per indexed
term, `("", 0.0)` when there are no indexed terms (`sims.size == 0`),
otherwise the first arg-max term (`np.argmax` keeps the first maximum) and
its score. -/
def semanticMatch (simf : SimFun) (vocab : List String) (q : String) : String × ℚ :=
  match vocab.map (fun t => (t, simf vocab q t)) with
  | [] => ("", 0)
  | p :: rest => rest.foldl (fun best x => if best.2 < x.2 then x else best) p

/-- Model of Python's `round(float(sim), 4)` (half away from zero versus
banker's rounding is immaterial here: no claim inspects a rounded digit). -/
def round4 (x : ℚ) : ℚ := (round (x * 10000) : ℤ) / 10000

/-! ## Pipeline stages (`process_dataframe`) -/

/-- Preparation: default columns, saving `_Cat_Original`/`_SubCat_Original`,
applying `_strip_loja_prefix` to `Sub-Categoria`, and the normalized key
`_k_subcat_in` computed at the start of stage 1. -/
def prepRow (r : RowIn) : Row :=
  { id := r.id, nome := r.nome, endereco := r.endereco, categoria := r.categoria,
    subcat := stripLoja r.subcat,
    catOriginal := r.categoria, subcatOriginal := r.subcat,
    kSubcatIn := normText (stripLoja r.subcat) }

/-- Left merge of one row against
`mapping_df[["k_original","k_nova","Nova SubCat","categoria_oficial"]]` on
`_k_subcat_in == k_original`: every matching catalog row produces an output
row, an unmatched row survives with a NaN payload. -/
def mergeCatalog (mapping : List CatEntry) (r : Row) : List Row :=
  match mapping.filter (fun e => e.kOriginal == r.kSubcatIn) with
  | [] => [r]
  | ms => ms.map (fun e => { r with payload := some e })

/-- `_apply_guard_rail`: adjust `Categoria` to the `categoria_oficial` of the
normalized subcategory key, skipping falsy keys and falsy lookup results. -/
def applyGuardRail (mapping : List CatEntry) (kNovaNorm : String) (r : Row) : Row :=
  if kNovaNorm == "" then r
  else
    match subcatNormToCat mapping kNovaNorm with
    | some catOficial => if catOficial == "" then r else { r with categoria := catOficial }
    | none => r

/-- Stage 1 assignment on rows with a merge payload: rewrite the
subcategory, set `acao`/`fonte`/`confianca`, and apply the guard rail with
the freshly normalized subcategory. -/
def applyDet (mapping : List CatEntry) (r : Row) : Row :=
  match r.payload with
  | none => r
  | some e =>
    let acaoVal := if stripLower e.novaSubCat == "excluir" then "Excluir" else "Corrigir"
    let r1 := { r with
      subcat := e.novaSubCat
      acao := some acaoVal
      fonte := some "catalogo"
      confianca := some (99 / 100 : ℚ) }
    applyGuardRail mapping (normText r1.subcat) r1

def stage1 (mapping : List CatEntry) (rows : List Row) : List Row :=
  (rows.flatMap (mergeCatalog mapping)).map (applyDet mapping)

/-- Column access `row.get(c, "")` on the working dataframe. -/
def rowGet (r : Row) (c : String) : String :=
  if c == "ID" then r.id
  else if c == "Nome" then r.nome
  else if c == "Endereço" then r.endereco
  else if c == "Categoria" then r.categoria
  else if c == "Sub-Categoria" then r.subcat
  else ""

/-- Contiguous-substring test `pat in hay` of Python. -/
def occursIn (pat hay : List Char) : Bool :=
  (List.range (hay.length + 1)).any (fun i => ((hay.drop i).take pat.length) == pat)

/-- The normalized haystack of `_contains_rule`: the source iterates
`for c in ("Nome")`, i.e. over the characters of the string `"Nome"`, so the
haystack is built from the (nonexistent) columns `"N"`, `"o"`, `"m"`, `"e"`. -/
def containsHayN (r : Row) : String :=
  normText (String.intercalate " " ("Nome".data.map (fun ch => rowGet r (String.mk [ch]))))

/-- `_contains_rule`: first catalog pair whose nonempty normalized original
key occurs in the haystack. -/
def containsRule (pairs : List (String × String)) (r : Row) : Option String :=
  if r.acao.isNone then
    (pairs.find? (fun p => p.1 != "" && occursIn p.1.data (containsHayN r).data)).map Prod.snd
  else none

/-- Stage 2 on one row: record `_nova_contains` and, for still-unset rows
with a match, assign subcategory, action, source and confidence and apply
the guard rail. -/
def applyContains (mapping : List CatEntry) (r : Row) : Row :=
  let nc := containsRule (dropDupPairs (mapping.map (fun e => (e.kOriginal, e.novaSubCat)))) r
  let r0 := { r with novaContains := nc }
  match r0.acao, nc with
  | none, some nova =>
    let acaoVal := if stripLower nova == "excluir" then "Excluir" else "Corrigir"
    let r1 := { r0 with
      subcat := nova
      acao := some acaoVal
      fonte := some "catalogo-contains"
      confianca := some (9 / 10 : ℚ) }
    applyGuardRail mapping (normText r1.subcat) r1
  | _, _ => r0

def containsStage (mapping : List CatEntry) (rows : List Row) : List Row :=
  rows.map (applyContains mapping)

/-- Vocabulary of the semantic validator:
`mapping_df["SubCat Original"].astype(str).dropna().unique()`, normalized. -/
def validatorVocab (mapping : List CatEntry) : List String :=
  (eraseDupsBy id (mapping.map (fun e => e.subcatOriginal))).map normText

/-- The key used by the validator's inline guard rail:
`orig_norm_to_k_nova.get(pred_norm) or norm_text(nova_pred)` (Python `or`
falls through on `None` and on the empty string). -/
def valGuardKNorm (mapping : List CatEntry) (predNorm novaPred : String) : String :=
  match origNormToKNova mapping predNorm with
  | some k => if k == "" then normText novaPred else k
  | none => normText novaPred

/-- The validator's inline category assignment: look up `categoria_oficial`
and assign it when truthy. -/
def valApplyCat (mapping : List CatEntry) (kNorm : String) (r1 : Row) : Row :=
  match subcatNormToCat mapping kNorm with
  | some catOficial =>
    if catOficial == "" then r1 else { r1 with categoria := catOficial }
  | none => r1

/-- The validator's query result on one row: best original-label term and
its similarity for the normalized `Nome`. -/
def valPred (simf : SimFun) (mapping : List CatEntry) (r : Row) : String × ℚ :=
  semanticMatch simf (validatorVocab mapping) (normText r.nome)

/-- `categoria_atual in ["cooperativa de crédito", "operadora de telefonia"]`. -/
def isProblematicSubcat (r : Row) : Bool :=
  stripLower r.subcat == "cooperativa de crédito" ||
  stripLower r.subcat == "operadora de telefonia"

/-- Stage 2.1, the universal semantic validator, on one row resolved by
stage 1 or 2. -/
def validatorRow (simf : SimFun) (mapping : List CatEntry) (lo : ℚ) (r : Row) : Row :=
  if r.fonte == some "catalogo" || r.fonte == some "catalogo-contains" then
    if r.nome == "" || ["nan", "none", ""].contains (stripLower r.nome) then r
    else
      match origNormToNew mapping (valPred simf mapping r).1 with
      | none => r
      | some novaPredRaw =>
        if novaPredRaw == "" then r
        else
          if pyLower (pyStrip novaPredRaw) ≠ stripLower r.subcat then
            if lo ≤ (valPred simf mapping r).2 ∨
               (isProblematicSubcat r = true ∧ (35 / 100 : ℚ) ≤ (valPred simf mapping r).2) then
              valApplyCat mapping
                (valGuardKNorm mapping (valPred simf mapping r).1 (pyStrip novaPredRaw))
                { r with
                  subcat := pyStrip novaPredRaw
                  acao := some "Corrigir"
                  fonte := some "semantico-validador"
                  confianca := some (round4 (valPred simf mapping r).2) }
            else if isProblematicSubcat r = true ∧ (valPred simf mapping r).2 < (35 / 100 : ℚ) then
              { r with
                acao := some "Verificar"
                fonte := some "semantico-validador"
                confianca := some (round4 (valPred simf mapping r).2) }
            else r
          else r
  else r

def validatorStage (simf : SimFun) (mapping : List CatEntry) (lo : ℚ) (rows : List Row) : List Row :=
  rows.map (validatorRow simf mapping lo)

/-- Vocabulary of stage 3:
`mapping_df["Nova SubCat"].astype(str).dropna().unique()`, normalized. -/
def inferVocab (mapping : List CatEntry) : List String :=
  (eraseDupsBy id (mapping.map (fun e => e.novaSubCat))).map normText

/-- The query bag of stage 3: `Nome` doubled when the subcategory is blank
or a placeholder. -/
def inferBag (r : Row) : String :=
  if pyStrip r.subcat = "" ∨ pyStrip r.subcat = "nan" ∨ pyStrip r.subcat = "None"
  then r.nome ++ " " ++ r.nome ++ " " ++ r.endereco ++ " " ++ r.categoria
  else r.nome ++ " " ++ r.endereco ++ " " ++ r.categoria

/-- Stage 3's query result on one row. -/
def inferPred (simf : SimFun) (mapping : List CatEntry) (r : Row) : String × ℚ :=
  semanticMatch simf (inferVocab mapping) (normText (inferBag r))

/-- Stage 3, light semantic inference, on one still-unset row. -/
def inferRow (simf : SimFun) (mapping : List CatEntry) (lo : ℚ) (r : Row) : Row :=
  if r.acao.isNone then
    if normText (inferBag r) = "" then
      { r with
        acao := some "Manter"
        fonte := some "nenhum"
        confianca := some 0 }
    else
      if lo ≤ (inferPred simf mapping r).2 then
        match mapping.find? (fun e => e.kNova == (inferPred simf mapping r).1) with
        | some e0 =>
          { r with
            subcat := e0.novaSubCat
            acao := some "Inferir"
            fonte := some "semantico"
            confianca := some (round4 (inferPred simf mapping r).2)
            categoria := e0.categoriaOficial }
        | none => r
      else
        { r with
          acao := some "Manter"
          fonte := some "nenhum"
          confianca := some (round4 (inferPred simf mapping r).2) }
  else r

def inferStage (simf : SimFun) (mapping : List CatEntry) (lo : ℚ) (rows : List Row) : List Row :=
  rows.map (inferRow simf mapping lo)

/-! ## Fixed address rule (3.1) -/

def addrKeywords : List (List Char) :=
  ["shopping".data, "loja".data, "lj".data, "ponto".data, "conj".data, "conjunto".data]

/-- Occurrence of word `w` at index `i` of `l` with `\b` boundaries on both
sides (`\b` separates `\w` from non-`\w` or the string edge). -/
def hasWordAt (l : List Char) (i : Nat) (w : List Char) : Bool :=
  ((l.drop i).take w.length == w)
  && (match i with
      | 0 => true
      | j + 1 => match l.get? j with
                 | some c => !(isWordChar c)
                 | none => true)
  && (match l.get? (i + w.length) with
      | some c => !(isWordChar c)
      | none => true)

/-- Model of
`.str.contains(r"\b(shopping|loja|lj|ponto|conj|conjunto)\b", case=False)`. -/
def addrExcl (s : String) : Bool :=
  let l := (pyLower s).data
  addrKeywords.any (fun w => (List.range (l.length + 1)).any (fun i => hasWordAt l i w))

/-- Rule 3.1: an address hit forces the exclusion sentinel, discarding any
earlier decision. -/
def applyAddr (r : Row) : Row :=
  if addrExcl r.endereco then
    { r with
      subcat := "Excluir"
      acao := some "Excluir"
      fonte := some "regra-endereco"
      confianca := some (1 : ℚ) }
  else r

def addrStage (rows : List Row) : List Row := rows.map applyAddr

/-! ## Deduplication (3.2) and finalization (4) -/

/-- The column tuple compared by `drop_duplicates(subset=dedupe_subset)`. -/
structure DedupKey where
  id : String
  nome : String
  endereco : String
  categoria : String
  subcat : String
  catOriginal : String
  subcatOriginal : String
  acao : Option String
  fonte : Option String
  confianca : Option ℚ
deriving DecidableEq, Repr

/-- The dedup key of `drop_duplicates(subset=dedupe_subset)`.  At this point
of the run the `SubCat_Intermediaria` column does not exist yet (it is
created only in step 4), so the effective subset is the other ten columns. -/
def dedupKey (r : Row) : DedupKey :=
  { id := r.id, nome := r.nome, endereco := r.endereco, categoria := r.categoria,
    subcat := r.subcat, catOriginal := r.catOriginal,
    subcatOriginal := r.subcatOriginal, acao := r.acao, fonte := r.fonte,
    confianca := r.confianca }

def dedupRows (rows : List Row) : List Row := eraseDupsBy dedupKey rows

/-- Step 4: records whose final subcategory is the exclusion sentinel get
their pre-run subcategory copied into `SubCat_Intermediaria`. -/
def fillIntermediaria (r : Row) : Row :=
  if stripLower r.subcat == "excluir" then
    { r with subcatIntermediaria := some r.subcatOriginal }
  else r

structure Metrics where
  total : Nat
  catalogo : Nat
  catalogoContains : Nat
  inferido : Nat
  manter : Nat
  excluidos : Nat
  baixaConfianca : Nat
deriving DecidableEq, Repr

/-- The tuple returned by `process_dataframe`:
`(df_final, baixa_conf, metrics, df_all)`. -/
structure PipelineOut where
  dfFinal : List Row
  baixaConf : List Row
  metrics : Metrics
  dfAll : List Row
deriving DecidableEq, Repr

def isBaixaConf (hi : ℚ) (r : Row) : Bool :=
  r.fonte == some "semantico"
  && (match r.confianca with
      | some c => decide (c < hi)
      | none => false)

def isExcluirRow (r : Row) : Bool := stripLower r.subcat == "excluir"

/-- Stages 1 through 3.1 composed: the fully annotated table before
deduplication. -/
def annotatedRows (simf : SimFun) (mapping : List CatEntry) (rows : List RowIn)
    (lo : ℚ) : List Row :=
  let df0 := rows.map prepRow
  let df1 := stage1 mapping df0
  let df2 := containsStage mapping df1
  let df3 := validatorStage simf mapping lo df2
  let df4 := inferStage simf mapping lo df3
  addrStage df4

/-- Whether `det_mask.any()` holds in stage 1; only then are the columns
`acao`/`fonte`/`confianca` ever created. -/
def detAny (mapping : List CatEntry) (rows : List RowIn) : Bool :=
  ((rows.map prepRow).flatMap (mergeCatalog mapping)).any (fun r => r.payload.isSome)

/-- The `KeyError: 'acao'` raised at `not_mapped = df["acao"].isna()` when
stage 1 assigned nothing and the `acao` column therefore never came into
existence. -/
def keyErrorAcao : String := "KeyError: acao"

def mkOut (hi : ℚ) (dd : List Row) : PipelineOut :=
  let final := dd.map fillIntermediaria
  { dfFinal := final,
    baixaConf := final.filter (isBaixaConf hi),
    metrics :=
      { total := final.length,
        catalogo := final.countP (fun r => r.fonte == some "catalogo"),
        catalogoContains := final.countP (fun r => r.fonte == some "catalogo-contains"),
        inferido := final.countP (fun r => r.fonte == some "semantico"),
        manter := final.countP (fun r => r.fonte == some "nenhum"),
        excluidos := final.countP isExcluirRow,
        baixaConfianca := final.countP (isBaixaConf hi) },
    dfAll := final }

/-- Model of `process_dataframe`.  When stage 1 matches nothing the run
aborts with a `KeyError` on the missing `acao` column (line 119 of
`pipeline.py`); otherwise the stages run to completion. -/
def processDataframe (simf : SimFun) (mapping : List CatEntry) (rows : List RowIn)
    (hi lo : ℚ) : Except String PipelineOut :=
  if detAny mapping rows then
    Except.ok (mkOut hi (dedupRows (annotatedRows simf mapping rows lo)))
  else Except.error keyErrorAcao

/-- The deliverable view of a run: `df_final` on success, nothing on a
raised exception. -/
def finalOf (x : Except String PipelineOut) : List Row :=
  match x with
  | Except.ok o => o.dfFinal
  | Except.error _ => []

/-! ## Catalog loader (`catalog_loader.py`)

Network and spreadsheet I/O are outside the embedding: a fetched or parsed
sheet arrives as a `PyTable` (its header row plus one association list per
data row).  Header-alias resolution and the required-column check follow
`load_mapping_xlsx` and `load_mapping_gsheets`. -/

structure PyTable where
  headers : List String
  rows : List (List (String × String))
deriving DecidableEq, Repr

/-- Cell access by column name. -/
def cellOf (row : List (String × String)) (c : String) : String :=
  match row.find? (fun p => p.1 == c) with
  | some p => p.2
  | none => ""

/-- Accepted aliases of the original-subcategory header in
`load_mapping_xlsx`. -/
def xlsxOrigAliases : List String :=
  ["subcat original", "subcat_original", "subcat", "subcategoria original"]

/-- Accepted aliases of the new-subcategory header in `load_mapping_xlsx`. -/
def xlsxNewAliases : List String :=
  ["nova subcat", "nova_subcat", "nova subcategoria", "nova_subcategoria", "nova"]

/-- Accepted aliases of the original-subcategory header in
`load_mapping_gsheets` (one more spelling than the xlsx loader). -/
def gsOrigAliases : List String :=
  ["subcat original", "subcat_original", "subcat", "subcategoria original",
   "subcategoria_original"]

/-- Accepted aliases of the new-subcategory header in
`load_mapping_gsheets`. -/
def gsNewAliases : List String :=
  ["nova subcat", "nova_subcat", "nova subcategoria", "nova_subcategoria", "nova"]

/-- `next((c for c in df.columns if safe_lower(c) in aliases), None)`. -/
def findCol (headers : List String) (aliases : List String) : Option String :=
  headers.find? (fun c => aliases.contains (safeLower c))

/-- One consolidated catalog row with its normalized keys. -/
def mkEntry (o n cat : String) : CatEntry :=
  { subcatOriginal := o, novaSubCat := n, categoriaOficial := cat,
    kOriginal := normText o, kNova := normText n, kCategoria := normText cat }

/-- Model of `load_mapping_xlsx`: resolve the two required headers, fail
with the loader's `ValueError` when either is missing, otherwise build the
consolidated catalog with `categoria_oficial = "CATALOGO_LOCAL"`. -/
def loadMappingXlsx (t : PyTable) : Except String (List CatEntry) :=
  match findCol t.headers xlsxOrigAliases, findCol t.headers xlsxNewAliases with
  | some co, some cn =>
    Except.ok (t.rows.map (fun row => mkEntry (cellOf row co) (cellOf row cn) "CATALOGO_LOCAL"))
  | _, _ =>
    Except.error "ValueError: planilha de mapeamento deve conter colunas SubCat Original e Nova SubCat (ou equivalentes)."

/-- Model of `load_mapping_gsheets` over already-fetched tabs: tabs are
consolidated in order, each contributing its tab name as
`categoria_oficial`; the first tab whose required headers cannot be
resolved aborts the whole load with the loader's `ValueError`. -/
def loadMappingGsheets : List (String × PyTable) → Except String (List CatEntry)
  | [] => Except.ok []
  | (tab, t) :: rest =>
    match findCol t.headers gsOrigAliases, findCol t.headers gsNewAliases with
    | some co, some cn =>
      match loadMappingGsheets rest with
      | Except.ok cs =>
        Except.ok ((t.rows.map (fun row => mkEntry (cellOf row co) (cellOf row cn) tab)) ++ cs)
      | Except.error e => Except.error e
    | _, _ =>
      Except.error "ValueError: aba precisa ter colunas SubCat Original e Nova SubCat (ou equivalentes)."

/-! ## Stateful wrapper

`process_dataframe` receives its two tables by reference.  The heap cells
the call can see are modelled as a state record: the caller's input table,
the caller's catalog snapshot, and the callee's working table, which starts
from the explicit `df = df_in.copy()` of line 52.  Every in-place `.loc`
write of the source targets the copy, so the stages below only ever store
into `work`. -/

structure PipeState where
  dfIn : List RowIn
  mappingDf : List CatEntry
  work : List Row
deriving Repr

/-- Statement-by-statement stateful rendering of `process_dataframe`:
reads `dfIn`/`mappingDf`, writes only `work`. -/
def processDataframeSt (simf : SimFun) (hi lo : ℚ) :
    StateM PipeState (Except String PipelineOut) := do
  modify (fun st => { st with work := st.dfIn.map prepRow })
  modify (fun st => { st with work := stage1 st.mappingDf st.work })
  let s1 ← get
  if detAny s1.mappingDf s1.dfIn then do
    modify (fun st => { st with work := containsStage st.mappingDf st.work })
    modify (fun st => { st with work := validatorStage simf st.mappingDf lo st.work })
    modify (fun st => { st with work := inferStage simf st.mappingDf lo st.work })
    modify (fun st => { st with work := addrStage st.work })
    modify (fun st => { st with work := dedupRows st.work })
    let s2 ← get
    pure (Except.ok (mkOut hi s2.work))
  else
    pure (Except.error keyErrorAcao)

/-! ## Normalizer lemmas

The whitespace handling of `norm_text` (`re.sub(r"\s+", " ")` followed by
`strip`) is analysed through a normal form: the list of whitespace-free
words.  `pyStripL (collapseRuns m)` equals the words of `m` joined by
single spaces. -/

/-- The pointwise part of `norm_text`: strip accents, lower, replace
non-kept characters by a space. -/
def preNorm (l : List Char) : List Char :=
  (pyLowerL (stripAccentsL l)).map (fun c => if keepChar c then c else ' ')

theorem normTextL_eq_strip_collapse (l : List Char) :
    normTextL l = pyStripL (collapseRuns (preNorm l)) := rfl

/-- Maximal whitespace-free words of a character list, in order. -/
def wordsOf (l : List Char) : List (List Char) :=
  match h : l.dropWhile isPySpace with
  | [] => []
  | c :: rest =>
    (c :: rest.takeWhile (fun x => !isPySpace x)) ::
      wordsOf (rest.dropWhile (fun x => !isPySpace x))
termination_by l.length
decreasing_by
  have h1 : (l.dropWhile isPySpace).length ≤ l.length :=
    (List.dropWhile_sublist isPySpace).length_le
  rw [h] at h1
  have h2 : (rest.dropWhile (fun x => !isPySpace x)).length ≤ rest.length :=
    (List.dropWhile_sublist _).length_le
  simp only [List.length_cons] at h1
  omega

/-- Joins words with single separating spaces. -/
def joinWords : List (List Char) → List Char
  | [] => []
  | w :: ws =>
    match ws with
    | [] => w
    | _ :: _ => w ++ ' ' :: joinWords ws

theorem collapse_cons_nonspace {c : Char} (h : isPySpace c = false) (t : List Char) :
    collapseRuns (c :: t) = c :: collapseRuns t := by
  cases t <;> simp [collapseRuns, h]

theorem collapse_cons_space_space {c d : Char} (hc : isPySpace c = true)
    (hd : isPySpace d = true) (t : List Char) :
    collapseRuns (c :: d :: t) = collapseRuns (d :: t) := by
  simp [collapseRuns, hc, hd]

theorem collapse_all_space {t : List Char} (hall : ∀ x ∈ t, isPySpace x = true)
    {c : Char} (hc : isPySpace c = true) : collapseRuns (c :: t) = [' '] := by
  induction t generalizing c with
  | nil => simp [collapseRuns, hc]
  | cons d t2 ih =>
    have hd : isPySpace d = true := hall d (by simp)
    rw [collapse_cons_space_space hc hd]
    exact ih (fun x hx => hall x (by simp [hx])) hd

theorem collapse_space_drop {c : Char} (hc : isPySpace c = true) {t u : List Char}
    (hu : t.dropWhile isPySpace = u) (hne : u ≠ []) :
    collapseRuns (c :: t) = ' ' :: collapseRuns u := by
  induction t generalizing c with
  | nil =>
    simp only [List.dropWhile_nil] at hu
    exact absurd hu.symm hne
  | cons d t2 ih =>
    by_cases hd : isPySpace d = true
    · rw [collapse_cons_space_space hc hd]
      rw [List.dropWhile_cons, if_pos hd] at hu
      exact ih hd hu
    · simp only [Bool.not_eq_true] at hd
      rw [List.dropWhile_cons, if_neg (by simp [hd])] at hu
      subst hu
      simp [collapseRuns, hc, hd]

theorem stripTrailing_eq_nil_iff {l : List Char} :
    stripTrailing l = [] ↔ ∀ c ∈ l, isPySpace c = true := by
  induction l with
  | nil => simp [stripTrailing]
  | cons c t ih =>
    constructor
    · intro h x hx
      rw [stripTrailing] at h
      rcases hst : stripTrailing t with _ | ⟨r0, rs⟩
      · rw [hst] at h
        rcases List.mem_cons.mp hx with hx | hx
        · subst hx
          by_contra hcx
          simp [Bool.not_eq_true] at hcx
          simp [hcx] at h
        · exact ih.mp hst x hx
      · rw [hst] at h; simp at h
    · intro hall
      rw [stripTrailing]
      have ht : stripTrailing t = [] := ih.mpr (fun x hx => hall x (by simp [hx]))
      rw [ht]
      simp [hall c (by simp)]

theorem stripTrailing_cons_of_ne {t : List Char} (h : stripTrailing t ≠ [])
    (c : Char) : stripTrailing (c :: t) = c :: stripTrailing t := by
  rw [stripTrailing]
  rcases hst : stripTrailing t with _ | ⟨r0, rs⟩
  · exact absurd hst h
  · rfl

theorem stripTrailing_cons_nonspace {c : Char} (h : isPySpace c = false)
    (t : List Char) : stripTrailing (c :: t) = c :: stripTrailing t := by
  rw [stripTrailing]
  rcases hst : stripTrailing t with _ | ⟨r0, rs⟩
  · simp [h]
  · rfl

theorem pyStripL_cons_space {c : Char} (h : isPySpace c = true) (t : List Char) :
    pyStripL (c :: t) = pyStripL t := by
  simp [pyStripL, List.dropWhile_cons, h]

theorem pyStripL_cons_nonspace {c : Char} (h : isPySpace c = false) (t : List Char) :
    pyStripL (c :: t) = c :: stripTrailing t := by
  simp [pyStripL, List.dropWhile_cons, h, stripTrailing_cons_nonspace h]

theorem dropWhile_eq_cons_head_false {p : Char → Bool} {l : List Char} {c : Char}
    {rest : List Char} (h : l.dropWhile p = c :: rest) : p c = false := by
  induction l with
  | nil => simp at h
  | cons a t ih =>
    rw [List.dropWhile_cons] at h
    by_cases ha : p a = true
    · rw [if_pos ha] at h; exact ih h
    · rw [if_neg ha] at h
      cases h
      simpa using ha

theorem wordsOf_eq_nil {l : List Char} (h : l.dropWhile isPySpace = []) :
    wordsOf l = [] := by
  rw [wordsOf.eq_def]
  split
  · rfl
  · rename_i c rest heq
    rw [h] at heq
    exact absurd heq (by simp)

theorem wordsOf_eq_cons {l c rest} (h : l.dropWhile isPySpace = c :: rest) :
    wordsOf l = (c :: rest.takeWhile (fun x => !isPySpace x)) ::
      wordsOf (rest.dropWhile (fun x => !isPySpace x)) := by
  rw [wordsOf.eq_def]
  split
  · rename_i heq
    rw [h] at heq
    exact absurd heq.symm (by simp)
  · rename_i c2 rest2 heq
    rw [h] at heq
    cases heq
    rfl

theorem wordsOf_congr {l₁ l₂ : List Char}
    (h : l₁.dropWhile isPySpace = l₂.dropWhile isPySpace) : wordsOf l₁ = wordsOf l₂ := by
  rcases hd : l₂.dropWhile isPySpace with _ | ⟨c, rest⟩
  · rw [wordsOf_eq_nil (h.trans hd), wordsOf_eq_nil hd]
  · rw [wordsOf_eq_cons (h.trans hd), wordsOf_eq_cons hd]

theorem wordsOf_cons_space {c : Char} (h : isPySpace c = true) (l : List Char) :
    wordsOf (c :: l) = wordsOf l :=
  wordsOf_congr (by rw [List.dropWhile_cons, if_pos h])

theorem wordsOf_cons_nonspace {c : Char} (h : isPySpace c = false) (l : List Char) :
    wordsOf (c :: l) = (c :: l.takeWhile (fun x => !isPySpace x)) ::
      wordsOf (l.dropWhile (fun x => !isPySpace x)) :=
  wordsOf_eq_cons (by rw [List.dropWhile_cons, if_neg (by simp [h])])

theorem joinWords_cons_head (c : Char) (u : List Char) (ws : List (List Char)) :
    joinWords ((c :: u) :: ws) = c :: joinWords (u :: ws) := by
  cases ws <;> simp [joinWords]

theorem strip_collapse_space_step {c : Char} (hc : isPySpace c = true) (t : List Char) :
    pyStripL (collapseRuns (c :: t)) = pyStripL (collapseRuns t) := by
  cases t with
  | nil =>
    have h1 : collapseRuns [c] = [' '] := by simp [collapseRuns, hc]
    rw [h1]
    decide
  | cons d t2 =>
    by_cases hd : isPySpace d = true
    · rw [collapse_cons_space_space hc hd]
    · simp only [Bool.not_eq_true] at hd
      have h1 : collapseRuns (c :: d :: t2) = ' ' :: collapseRuns (d :: t2) := by
        simp [collapseRuns, hc, hd]
      rw [h1, pyStripL_cons_space (by decide)]

/-- The collapse-and-strip whitespace treatment of `norm_text` computes the
words of its input joined by single spaces. -/
theorem strip_collapse_eq_join (m : List Char) :
    pyStripL (collapseRuns m) = joinWords (wordsOf m) := by
  suffices h : ∀ (n : Nat) (m : List Char), m.length ≤ n →
      pyStripL (collapseRuns m) = joinWords (wordsOf m) from h m.length m le_rfl
  intro n
  induction n with
  | zero =>
    intro m hm
    have hm0 : m = [] := List.length_eq_zero.mp (Nat.le_zero.mp hm)
    subst hm0
    rw [wordsOf_eq_nil (l := []) (by simp)]
    rfl
  | succ n ih =>
    intro m hm
    match m with
    | [] =>
      rw [wordsOf_eq_nil (l := []) (by simp)]
      rfl
    | c :: t =>
      have ht : t.length ≤ n := by
        simpa using Nat.le_of_succ_le_succ (by simpa using hm)
      by_cases hc : isPySpace c = true
      · rw [strip_collapse_space_step hc, wordsOf_cons_space hc]
        exact ih t ht
      · simp only [Bool.not_eq_true] at hc
        rw [collapse_cons_nonspace hc, pyStripL_cons_nonspace hc,
          wordsOf_cons_nonspace hc]
        match t with
        | [] => simp [collapseRuns, stripTrailing, joinWords, wordsOf_eq_nil]
        | d :: t2 =>
          by_cases hd : isPySpace d = true
          · -- the word is the single character `c`; spaces follow
            have htw : (d :: t2).takeWhile (fun x => !isPySpace x) = [] := by
              simp [List.takeWhile_cons, hd]
            have hdw : (d :: t2).dropWhile (fun x => !isPySpace x) = d :: t2 := by
              simp [List.dropWhile_cons, hd]
            rw [htw, hdw]
            rcases hu : t2.dropWhile isPySpace with _ | ⟨e, u2⟩
            · -- everything after `c` is whitespace
              have hall : ∀ x ∈ t2, isPySpace x = true := by
                simpa using List.dropWhile_eq_nil_iff.mp hu
              have hcol : collapseRuns (d :: t2) = [' '] := collapse_all_space hall hd
              rw [hcol]
              have hwnil : wordsOf (d :: t2) = [] :=
                wordsOf_eq_nil (by rw [List.dropWhile_cons, if_pos hd]; exact hu)
              rw [hwnil]
              have hsp : isPySpace ' ' = true := by decide
              simp [joinWords, stripTrailing, hsp]
            · -- a further word starts at `e`
              have he : isPySpace e = false := dropWhile_eq_cons_head_false hu
              have hcol : collapseRuns (d :: t2) = ' ' :: collapseRuns (e :: u2) :=
                collapse_space_drop hd hu (by simp)
              rw [hcol]
              have hene : stripTrailing (collapseRuns (e :: u2)) ≠ [] := by
                intro hnil
                have := stripTrailing_eq_nil_iff.mp hnil e
                rw [collapse_cons_nonspace he] at this
                simp [he] at this
              rw [stripTrailing_cons_of_ne hene]
              have hstp : stripTrailing (collapseRuns (e :: u2)) =
                  pyStripL (collapseRuns (e :: u2)) := by
                rw [collapse_cons_nonspace he, stripTrailing_cons_nonspace he,
                  pyStripL_cons_nonspace he]
              have hlen : (e :: u2).length ≤ n := by
                have h1 : (e :: u2).length ≤ t2.length := by
                  rw [← hu]
                  exact (List.dropWhile_sublist isPySpace).length_le
                have h2 : (d :: t2).length ≤ n := ht
                simp only [List.length_cons] at h1 h2 ⊢
                omega
              rw [hstp, ih (e :: u2) hlen]
              have hwt : wordsOf (d :: t2) = wordsOf (e :: u2) :=
                wordsOf_congr (by
                  rw [List.dropWhile_cons, if_pos hd, hu, List.dropWhile_cons,
                    if_neg (by simp [he])])
              rw [hwt]
              have hwne : wordsOf (e :: u2) =
                  (e :: u2.takeWhile (fun x => !isPySpace x)) ::
                    wordsOf (u2.dropWhile (fun x => !isPySpace x)) :=
                wordsOf_cons_nonspace he u2
              rw [hwne]
              simp [joinWords]
          · -- the word continues with `d`
            simp only [Bool.not_eq_true] at hd
            have htw : (d :: t2).takeWhile (fun x => !isPySpace x) =
                d :: t2.takeWhile (fun x => !isPySpace x) := by
              simp [List.takeWhile_cons, hd]
            have hdw : (d :: t2).dropWhile (fun x => !isPySpace x) =
                t2.dropWhile (fun x => !isPySpace x) := by
              simp [List.dropWhile_cons, hd]
            rw [htw, hdw]
            have hstp : stripTrailing (collapseRuns (d :: t2)) =
                pyStripL (collapseRuns (d :: t2)) := by
              rw [collapse_cons_nonspace hd, stripTrailing_cons_nonspace hd,
                pyStripL_cons_nonspace hd]
            rw [hstp, ih (d :: t2) ht, wordsOf_cons_nonspace hd, joinWords_cons_head,
              joinWords_cons_head, joinWords_cons_head]

theorem takeWhile_append_all {q : Char → Bool} {a : List Char}
    (h : ∀ x ∈ a, q x = true) (b : List Char) :
    (a ++ b).takeWhile q = a ++ b.takeWhile q := by
  induction a with
  | nil => simp
  | cons x a2 ih =>
    have hx := h x (by simp)
    simp only [List.cons_append, List.takeWhile_cons, hx, if_true]
    rw [ih (fun x hx2 => h x (by simp [hx2]))]

theorem dropWhile_append_all {q : Char → Bool} {a : List Char}
    (h : ∀ x ∈ a, q x = true) (b : List Char) :
    (a ++ b).dropWhile q = b.dropWhile q := by
  induction a with
  | nil => simp
  | cons x a2 ih =>
    simp only [List.cons_append, List.dropWhile_cons, h x (by simp)]
    exact ih (fun x hx => h x (by simp [hx]))

theorem takeWhile_append_stop {q : Char → Bool} {a : List Char}
    (h : a.dropWhile q ≠ []) (b : List Char) :
    (a ++ b).takeWhile q = a.takeWhile q := by
  induction a with
  | nil => simp at h
  | cons x a2 ih =>
    by_cases hx : q x = true
    · simp only [List.cons_append, List.takeWhile_cons, hx, if_pos]
      rw [List.dropWhile_cons, if_pos hx] at h
      rw [ih h]
    · rw [List.dropWhile_cons, if_neg hx] at h
      simp only [List.cons_append, List.takeWhile_cons]
      rw [if_neg hx, if_neg hx]

theorem dropWhile_append_stop {q : Char → Bool} {a : List Char}
    (h : a.dropWhile q ≠ []) (b : List Char) :
    (a ++ b).dropWhile q = a.dropWhile q ++ b := by
  induction a with
  | nil => simp at h
  | cons x a2 ih =>
    by_cases hx : q x = true
    · simp only [List.cons_append, List.dropWhile_cons, hx, if_pos]
      rw [List.dropWhile_cons, if_pos hx] at h
      exact ih h
    · simp only [List.cons_append, List.dropWhile_cons]
      rw [if_neg hx, if_neg hx]
      rfl

theorem wordsOf_append_space_left {sp : List Char}
    (h : ∀ x ∈ sp, isPySpace x = true) (y : List Char) :
    wordsOf (sp ++ y) = wordsOf y := by
  induction sp with
  | nil => simp
  | cons s sp2 ih =>
    rw [List.cons_append, wordsOf_cons_space (h s (by simp))]
    exact ih (fun x hx => h x (by simp [hx]))

theorem wordsOf_append_space_right {sp : List Char}
    (hsp : ∀ x ∈ sp, isPySpace x = true) (y : List Char) :
    wordsOf (y ++ sp) = wordsOf y := by
  suffices h : ∀ (n : Nat) (y : List Char), y.length ≤ n →
      wordsOf (y ++ sp) = wordsOf y from h y.length y le_rfl
  intro n
  induction n with
  | zero =>
    intro y hy
    have hy0 : y = [] := List.length_eq_zero.mp (Nat.le_zero.mp hy)
    subst hy0
    rw [List.nil_append, wordsOf_eq_nil (List.dropWhile_eq_nil_iff.mpr ?_),
      wordsOf_eq_nil (l := []) (by simp)]
    intro x hx
    exact hsp x hx
  | succ n ih =>
    intro y hy
    match y with
    | [] =>
      rw [List.nil_append, wordsOf_eq_nil (List.dropWhile_eq_nil_iff.mpr ?_),
        wordsOf_eq_nil (l := []) (by simp)]
      intro x hx
      exact hsp x hx
    | c :: y2 =>
      have hy2 : y2.length ≤ n := by
        simpa using Nat.le_of_succ_le_succ (by simpa using hy)
      by_cases hc : isPySpace c = true
      · rw [List.cons_append, wordsOf_cons_space hc, wordsOf_cons_space hc]
        exact ih y2 hy2
      · simp only [Bool.not_eq_true] at hc
        rw [List.cons_append, wordsOf_cons_nonspace hc, wordsOf_cons_nonspace hc]
        rcases hdq : y2.dropWhile (fun x => !isPySpace x) with _ | ⟨z, zs⟩
        · -- y2 is entirely non-whitespace
          have hall : ∀ x ∈ y2, isPySpace x = false := by
            have := List.dropWhile_eq_nil_iff.mp hdq
            intro x hx
            simpa using this x hx
          have htk : y2.takeWhile (fun x => !isPySpace x) = y2 :=
            List.takeWhile_eq_self_iff.mpr (by intro x hx; simp [hall x hx])
          rw [takeWhile_append_all (by intro x hx; simp [hall x hx]),
            dropWhile_append_all (by intro x hx; simp [hall x hx])]
          have htk2 : sp.takeWhile (fun x => !isPySpace x) = [] := by
            cases sp with
            | nil => rfl
            | cons s sp2 =>
              rw [List.takeWhile_cons, if_neg (by simp [hsp s (by simp)])]
          have hdr2 : sp.dropWhile (fun x => !isPySpace x) = sp := by
            cases sp with
            | nil => rfl
            | cons s sp2 =>
              rw [List.dropWhile_cons, if_neg (by simp [hsp s (by simp)])]
          rw [htk2, hdr2, wordsOf_eq_nil (List.dropWhile_eq_nil_iff.mpr hsp),
            wordsOf_eq_nil (l := []) (by simp)]
          simp [htk]
        · -- a whitespace character occurs inside y2
          have hne : y2.dropWhile (fun x => !isPySpace x) ≠ [] := by simp [hdq]
          rw [takeWhile_append_stop hne, dropWhile_append_stop hne]
          have hlen : (y2.dropWhile (fun x => !isPySpace x)).length ≤ n := by
            have h1 : (y2.dropWhile (fun x => !isPySpace x)).length ≤ y2.length :=
              (List.dropWhile_sublist _).length_le
            omega
          rw [ih _ hlen, hdq]

theorem wordsOf_join {ws : List (List Char)}
    (h : ∀ w ∈ ws, w ≠ [] ∧ ∀ c ∈ w, isPySpace c = false) :
    wordsOf (joinWords ws) = ws := by
  induction ws with
  | nil => exact wordsOf_eq_nil (l := []) (by simp)
  | cons w ws2 ih =>
    obtain ⟨hne, hnos⟩ := h w (by simp)
    match w, hne with
    | z :: w2, _ =>
      have hz : isPySpace z = false := hnos z (by simp)
      have hw2 : ∀ x ∈ w2, isPySpace x = false := fun x hx => hnos x (by simp [hx])
      match ws2 with
      | [] =>
        show wordsOf (z :: w2) = [z :: w2]
        rw [wordsOf_cons_nonspace hz]
        have htk : w2.takeWhile (fun x => !isPySpace x) = w2 :=
          List.takeWhile_eq_self_iff.mpr (by intro x hx; simp [hw2 x hx])
        have hdr : w2.dropWhile (fun x => !isPySpace x) = [] :=
          List.dropWhile_eq_nil_iff.mpr (by intro x hx; simp [hw2 x hx])
        rw [htk, hdr, wordsOf_eq_nil (l := []) (by simp)]
      | v :: ws3 =>
        show wordsOf ((z :: w2) ++ ' ' :: joinWords (v :: ws3)) = (z :: w2) :: v :: ws3
        rw [List.cons_append, wordsOf_cons_nonspace hz]
        rw [takeWhile_append_all (by intro x hx; simp [hw2 x hx]),
          dropWhile_append_all (by intro x hx; simp [hw2 x hx])]
        have hsp : isPySpace ' ' = true := by decide
        rw [List.takeWhile_cons, if_neg (by simp [hsp]), List.dropWhile_cons,
          if_neg (by simp [hsp])]
        rw [wordsOf_cons_space hsp]
        rw [ih (fun x hx => h x (by simp [hx]))]
        simp

/-! ## Character stability and idempotence of `norm_text` -/

/-- Characters fixed by every pointwise step of `norm_text`. -/
def goodChar (c : Char) : Prop :=
  deaccentChar c = c ∧ pyLowerChar c = c ∧ isCombining c = false ∧ keepChar c = true

instance (c : Char) : Decidable (goodChar c) :=
  inferInstanceAs (Decidable (deaccentChar c = c ∧ pyLowerChar c = c ∧
    isCombining c = false ∧ keepChar c = true))

theorem space_char_cases {c : Char} (h : isPySpace c = true) :
    c = ' ' ∨ c = '\t' ∨ c = '\n' ∨ c = '\r' ∨ c = '\x0b' ∨ c = '\x0c' := by
  have hmem : c ∈ pyWsChars := by
    have h2 : List.elem c pyWsChars = true := h
    exact List.mem_of_elem_eq_true h2
  simpa [pyWsChars] using hmem

theorem space_goodChar {c : Char} (h : isPySpace c = true) : goodChar c := by
  rcases space_char_cases h with h1 | h1 | h1 | h1 | h1 | h1 <;> subst h1 <;> exact (by decide)

theorem tableMap_of_none {t : List (Char × Char)} {c : Char}
    (h : t.find? (fun p => p.1 == c) = none) : tableMap t c = c := by
  simp [tableMap, h]

theorem tableMap_cases (t : List (Char × Char)) (c : Char) :
    (t.find? (fun p => p.1 == c) = none ∧ tableMap t c = c) ∨
    ∃ p, p ∈ t ∧ t.find? (fun p2 => p2.1 == c) = some p ∧ tableMap t c = p.2 := by
  rcases hf : t.find? (fun p => p.1 == c) with _ | p
  · exact Or.inl ⟨hf, tableMap_of_none hf⟩
  · exact Or.inr ⟨p, List.mem_of_find?_eq_some hf, hf, by simp [tableMap, hf]⟩

theorem accent_values_stable : ∀ p ∈ accentTable,
    accentTable.find? (fun q => q.1 == p.2) = none ∧ isCombining p.2 = false := by decide

theorem lower_values_stable : ∀ p ∈ lowerTable,
    lowerTable.find? (fun q => q.1 == p.2) = none ∧ isCombining p.2 = false := by decide

theorem lower_preserves_accfree : ∀ p ∈ lowerTable,
    accentTable.find? (fun q => q.1 == p.1) = none →
    accentTable.find? (fun q => q.1 == p.2) = none := by decide

theorem deaccent_accfree (c : Char) :
    accentTable.find? (fun p => p.1 == deaccentChar c) = none := by
  rcases tableMap_cases accentTable c with ⟨hn, he⟩ | ⟨p, hmem, hf, he⟩
  · rw [deaccentChar, he]; exact hn
  · rw [deaccentChar, he]; exact (accent_values_stable p hmem).1

theorem pyLower_stable {x : Char}
    (hacc : accentTable.find? (fun p => p.1 == x) = none)
    (hcomb : isCombining x = false) :
    accentTable.find? (fun p => p.1 == pyLowerChar x) = none ∧
    pyLowerChar (pyLowerChar x) = pyLowerChar x ∧ isCombining (pyLowerChar x) = false := by
  rcases tableMap_cases lowerTable x with ⟨hn, he⟩ | ⟨p, hmem, hf, he⟩
  · have hx : pyLowerChar x = x := he
    rw [hx]
    exact ⟨hacc, by rw [hx], hcomb⟩
  · have hpx : p.1 = x := by
      have := List.find?_some hf
      simpa using this
    have hx : pyLowerChar x = p.2 := he
    rw [hx]
    refine ⟨lower_preserves_accfree p hmem (by rw [hpx]; exact hacc), ?_, (lower_values_stable p hmem).2⟩
    rw [show pyLowerChar p.2 = tableMap lowerTable p.2 from rfl,
      tableMap_of_none (lower_values_stable p hmem).1]

theorem preNorm_chars_good {l : List Char} : ∀ c ∈ preNorm l, goodChar c := by
  intro c hc
  rw [preNorm] at hc
  rcases List.mem_map.mp hc with ⟨b, hb, rfl⟩
  rcases List.mem_map.mp hb with ⟨a, ha, rfl⟩
  rcases List.mem_filter.mp ha with ⟨ha2, hcombA⟩
  rcases List.mem_map.mp ha2 with ⟨a0, _, rfl⟩
  have haccA : accentTable.find? (fun p => p.1 == deaccentChar a0) = none :=
    deaccent_accfree a0
  have hcombA2 : isCombining (deaccentChar a0) = false := by simpa using hcombA
  obtain ⟨hacc, hfix, hcomb⟩ := pyLower_stable haccA hcombA2
  by_cases hk : keepChar (pyLowerChar (deaccentChar a0)) = true
  · rw [if_pos hk]
    exact ⟨tableMap_of_none hacc, hfix, hcomb, hk⟩
  · rw [if_neg hk]
    exact (by decide : goodChar ' ')

theorem preNorm_fixed {x : List Char} (h : ∀ c ∈ x, goodChar c) : preNorm x = x := by
  induction x with
  | nil => rfl
  | cons c x2 ih =>
    obtain ⟨hd, hl, hcomb, hk⟩ := h c (by simp)
    have hrest := ih (fun c2 hc2 => h c2 (by simp [hc2]))
    have h1 : stripAccentsL (c :: x2) = c :: stripAccentsL x2 := by
      simp only [stripAccentsL, List.map_cons, hd, List.filter_cons, hcomb]
      simp
    have h2 : preNorm (c :: x2) =
        (if keepChar (pyLowerChar c) then pyLowerChar c else ' ') :: preNorm x2 := by
      rw [preNorm, h1]
      simp [pyLowerL, preNorm]
    rw [h2, hl, if_pos hk, hrest]

theorem preNorm_append (a b : List Char) : preNorm (a ++ b) = preNorm a ++ preNorm b := by
  simp [preNorm, stripAccentsL, pyLowerL]

theorem preNorm_spaces {sp : List Char} (h : ∀ x ∈ sp, isPySpace x = true) :
    preNorm sp = sp :=
  preNorm_fixed (fun c hc => space_goodChar (h c hc))

theorem mem_of_mem_wordsOf (m : List Char) :
    ∀ w ∈ wordsOf m, ∀ c ∈ w, c ∈ m := by
  suffices hgen : ∀ (n : Nat) (m : List Char), m.length ≤ n →
      ∀ w ∈ wordsOf m, ∀ c ∈ w, c ∈ m from hgen m.length m le_rfl
  intro n
  induction n with
  | zero =>
    intro m hm w hw c hc
    have hm0 : m = [] := List.length_eq_zero.mp (Nat.le_zero.mp hm)
    subst hm0
    rw [wordsOf_eq_nil (l := []) (by simp)] at hw
    simp at hw
  | succ n ih =>
    intro m hm w hw c hc
    rcases hd : m.dropWhile isPySpace with _ | ⟨c0, rest⟩
    · rw [wordsOf_eq_nil hd] at hw; simp at hw
    · rw [wordsOf_eq_cons hd] at hw
      have hsub : List.Sublist (c0 :: rest) m := hd ▸ List.dropWhile_sublist isPySpace
      rcases List.mem_cons.mp hw with hw1 | hw2
      · subst hw1
        rcases List.mem_cons.mp hc with hc1 | hc2
        · subst hc1
          exact hsub.subset (by simp)
        · have hcr0 : c ∈ rest := (List.takeWhile_sublist _).subset hc2
          exact hsub.subset (by simp [hcr0])
      · have hlen : (rest.dropWhile (fun x => !isPySpace x)).length ≤ n := by
          have h1 : (rest.dropWhile (fun x => !isPySpace x)).length ≤ rest.length :=
            (List.dropWhile_sublist _).length_le
          have h2 : (c0 :: rest).length ≤ m.length := hsub.length_le
          simp only [List.length_cons] at h2
          omega
        have hcd : c ∈ rest.dropWhile (fun x => !isPySpace x) := ih _ hlen w hw2 c hc
        have hcr : c ∈ rest := (List.dropWhile_sublist _).subset hcd
        exact hsub.subset (by simp [hcr])

theorem mem_joinWords {c : Char} {ws : List (List Char)} (h : c ∈ joinWords ws) :
    (∃ w ∈ ws, c ∈ w) ∨ c = ' ' := by
  induction ws with
  | nil => simp [joinWords] at h
  | cons w ws2 ih =>
    match ws2 with
    | [] =>
      left
      exact ⟨w, by simp, by simpa [joinWords] using h⟩
    | v :: ws3 =>
      rw [show joinWords (w :: v :: ws3) = w ++ ' ' :: joinWords (v :: ws3) from rfl] at h
      rcases List.mem_append.mp h with hw | hrest
      · exact Or.inl ⟨w, by simp, hw⟩
      · rcases List.mem_cons.mp hrest with hsp | hj
        · exact Or.inr hsp
        · rcases ih hj with ⟨w2, hw2, hcw2⟩ | hsp
          · exact Or.inl ⟨w2, by simp [hw2], hcw2⟩
          · exact Or.inr hsp

theorem wordsOf_wellformed (m : List Char) :
    ∀ w ∈ wordsOf m, w ≠ [] ∧ ∀ c ∈ w, isPySpace c = false := by
  suffices hgen : ∀ (n : Nat) (m : List Char), m.length ≤ n →
      ∀ w ∈ wordsOf m, w ≠ [] ∧ ∀ c ∈ w, isPySpace c = false from hgen m.length m le_rfl
  intro n
  induction n with
  | zero =>
    intro m hm w hw
    have hm0 : m = [] := List.length_eq_zero.mp (Nat.le_zero.mp hm)
    subst hm0
    rw [wordsOf_eq_nil (l := []) (by simp)] at hw
    simp at hw
  | succ n ih =>
    intro m hm w hw
    rcases hd : m.dropWhile isPySpace with _ | ⟨c0, rest⟩
    · rw [wordsOf_eq_nil hd] at hw; simp at hw
    · rw [wordsOf_eq_cons hd] at hw
      have hsub : List.Sublist (c0 :: rest) m := hd ▸ List.dropWhile_sublist isPySpace
      rcases List.mem_cons.mp hw with hw1 | hw2
      · subst hw1
        refine ⟨by simp, ?_⟩
        intro c hc
        rcases List.mem_cons.mp hc with hc1 | hc2
        · subst hc1
          exact dropWhile_eq_cons_head_false hd
        · have := List.mem_takeWhile_imp hc2
          simpa using this
      · have hlen : (rest.dropWhile (fun x => !isPySpace x)).length ≤ n := by
          have h1 : (rest.dropWhile (fun x => !isPySpace x)).length ≤ rest.length :=
            (List.dropWhile_sublist _).length_le
          have h2 : (c0 :: rest).length ≤ m.length := hsub.length_le
          simp only [List.length_cons] at h2
          omega
        exact ih _ hlen w hw2

theorem normTextL_words (l : List Char) :
    normTextL l = joinWords (wordsOf (preNorm l)) := by
  rw [normTextL_eq_strip_collapse, strip_collapse_eq_join]

/-- Idempotence of the list-level normalizer. -/
theorem normTextL_idem (l : List Char) : normTextL (normTextL l) = normTextL l := by
  rw [normTextL_words l]
  have hwf : ∀ w ∈ wordsOf (preNorm l), w ≠ [] ∧ ∀ c ∈ w, isPySpace c = false :=
    wordsOf_wellformed (preNorm l)
  have hgood : ∀ c ∈ joinWords (wordsOf (preNorm l)), goodChar c := by
    intro c hc
    rcases mem_joinWords hc with ⟨w, hw, hcw⟩ | hsp
    · exact preNorm_chars_good c (mem_of_mem_wordsOf (preNorm l) w hw c hcw)
    · subst hsp
      exact (by decide : goodChar ' ')
  rw [normTextL_words (joinWords (wordsOf (preNorm l))), preNorm_fixed hgood,
    wordsOf_join hwf]

theorem stripTrailing_decomp (x : List Char) :
    ∃ sp, (∀ c ∈ sp, isPySpace c = true) ∧ x = stripTrailing x ++ sp := by
  induction x with
  | nil => exact ⟨[], by simp, rfl⟩
  | cons c rest ih =>
    obtain ⟨sp, hsp, hx⟩ := ih
    rcases hst : stripTrailing rest with _ | ⟨r0, rs⟩
    · have hall : ∀ z ∈ rest, isPySpace z = true := stripTrailing_eq_nil_iff.mp hst
      by_cases hc : isPySpace c = true
      · refine ⟨c :: rest, ?_, ?_⟩
        · intro z hz
          rcases List.mem_cons.mp hz with hz1 | hz2
          · subst hz1; exact hc
          · exact hall z hz2
        · rw [stripTrailing, hst]
          simp [hc]
      · simp only [Bool.not_eq_true] at hc
        refine ⟨rest, hall, ?_⟩
        rw [stripTrailing, hst]
        simp [hc]
    · refine ⟨sp, hsp, ?_⟩
      rw [stripTrailing_cons_of_ne (by simp [hst]) c, List.cons_append, ← hx]

/-- `norm_text` is insensitive to a prior `str.strip()`. -/
theorem normTextL_pyStrip (l : List Char) : normTextL (pyStripL l) = normTextL l := by
  obtain ⟨sp, hsp, hdec⟩ := stripTrailing_decomp (l.dropWhile isPySpace)
  have htake : ∀ c ∈ l.takeWhile isPySpace, isPySpace c = true :=
    fun c hc => List.mem_takeWhile_imp hc
  have hl : l = l.takeWhile isPySpace ++ (pyStripL l ++ sp) := by
    conv_lhs => rw [← List.takeWhile_append_dropWhile (p := isPySpace) (l := l)]
    rw [show pyStripL l = stripTrailing (l.dropWhile isPySpace) from rfl, ← hdec]
  conv_rhs => rw [hl]
  rw [normTextL_words (pyStripL l),
    normTextL_words (List.takeWhile isPySpace l ++ (pyStripL l ++ sp))]
  rw [preNorm_append, preNorm_append, preNorm_spaces htake, preNorm_spaces hsp]
  rw [wordsOf_append_space_left htake, wordsOf_append_space_right hsp]

theorem normText_pyStrip (s : String) : normText (pyStrip s) = normText s := by
  show String.mk (normTextL (pyStripL s.data)) = String.mk (normTextL s.data)
  rw [normTextL_pyStrip]

/-! ## Deduplication and dictionary lemmas -/

theorem eraseDupsBy_sublist {α β : Type} [DecidableEq β] (k : α → β) (l : List α) :
    List.Sublist (eraseDupsBy k l) l := by
  induction l with
  | nil => simp [eraseDupsBy]
  | cons a t ih =>
    simp only [eraseDupsBy]
    exact List.Sublist.cons₂ a ((List.filter_sublist (eraseDupsBy k t)).trans ih)

theorem mem_of_mem_eraseDupsBy {α β : Type} [DecidableEq β] {k : α → β} {l : List α}
    {x : α} (h : x ∈ eraseDupsBy k l) : x ∈ l :=
  (eraseDupsBy_sublist k l).subset h

theorem eraseDupsBy_key_complete {α β : Type} [DecidableEq β] (k : α → β) :
    ∀ (l : List α), ∀ y ∈ l, ∃ x ∈ eraseDupsBy k l, k x = k y := by
  intro l
  induction l with
  | nil =>
    intro y hy
    simp at hy
  | cons a t ih =>
    intro y hy
    simp only [eraseDupsBy]
    rcases List.mem_cons.mp hy with hy1 | hy2
    · exact ⟨a, by simp, by rw [hy1]⟩
    · by_cases hk : k y = k a
      · exact ⟨a, by simp, hk.symm⟩
      · obtain ⟨x, hx, hkx⟩ := ih y hy2
        refine ⟨x, ?_, hkx⟩
        have hxf : x ∈ (eraseDupsBy k t).filter (fun b => k b != k a) :=
          List.mem_filter.mpr ⟨hx, by rw [hkx]; simpa using hk⟩
        simp [hxf]

theorem eraseDupsBy_nodup_keys {α β : Type} [DecidableEq β] (k : α → β) (l : List α) :
    ((eraseDupsBy k l).map k).Nodup := by
  induction l with
  | nil => simp [eraseDupsBy]
  | cons a t ih =>
    simp only [eraseDupsBy, List.map_cons, List.nodup_cons]
    constructor
    · intro hmem
      rcases List.mem_map.mp hmem with ⟨x, hx, hkx⟩
      have hne := (List.mem_filter.mp hx).2
      rw [hkx] at hne
      simp at hne
    · have hsub : List.Sublist
          ((((eraseDupsBy k t).filter (fun b => k b != k a)).map k))
          ((eraseDupsBy k t).map k) :=
        (List.filter_sublist (eraseDupsBy k t)).map k
      exact List.Nodup.sublist hsub ih

theorem filter_map_comm {α β : Type} (f : α → β) (p : β → Bool) (l : List α) :
    (l.filter (fun b => p (f b))).map f = (l.map f).filter p := by
  induction l with
  | nil => rfl
  | cons a t ih =>
    by_cases hp : p (f a) = true
    · simp [List.filter_cons, hp, ih]
    · simp [List.filter_cons, hp, ih]

/-- Deduplicating rows and then projecting to keys is the same as
deduplicating the key list. -/
theorem map_eraseDupsBy {α β : Type} [DecidableEq β] (k : α → β) (l : List α) :
    (eraseDupsBy k l).map k = eraseDupsBy id (l.map k) := by
  induction l with
  | nil => rfl
  | cons a t ih =>
    simp only [eraseDupsBy, List.map_cons]
    rw [filter_map_comm k (fun x => x != k a) (eraseDupsBy k t), ih]
    rfl

theorem pyDict_mem {ps : List (String × String)} {k v : String}
    (h : pyDict ps k = some v) : (k, v) ∈ ps := by
  unfold pyDict at h
  rcases hf : ps.reverse.find? (fun p => p.1 == k) with _ | p
  · rw [hf] at h; simp at h
  · rw [hf] at h
    simp only [Option.map] at h
    have hpm : p ∈ ps.reverse := List.mem_of_find?_eq_some hf
    have hpk : p.1 = k := by
      have := List.find?_some hf
      simpa using this
    have : p = (k, v) := by
      cases p
      simp only [Option.some.injEq] at h
      simp_all
    rw [← this]
    exact List.mem_reverse.mp hpm

theorem pyDict_isSome_of_mem {ps : List (String × String)} {k v : String}
    (h : (k, v) ∈ ps) : ∃ w, pyDict ps k = some w := by
  unfold pyDict
  have hex : ∃ p ∈ ps.reverse, (fun p : String × String => p.1 == k) p = true :=
    ⟨(k, v), List.mem_reverse.mpr h, by simp⟩
  rcases hf : ps.reverse.find? (fun p => p.1 == k) with _ | p
  · rw [List.find?_eq_none] at hf
    obtain ⟨p, hp, hpk⟩ := hex
    exact absurd hpk (by simpa using hf p hp)
  · refine ⟨p.2, ?_⟩
    rw [hf]
    rfl

/-- Soundness of the `drop_duplicates` + `dict` pattern: a hit comes from
some catalog row. -/
theorem pyDictPairs_mem {α : Type} (f : α → String × String) (l : List α)
    {k v : String} (h : pyDict (dropDupPairs (l.map f)) k = some v) :
    ∃ e ∈ l, (f e).1 = k ∧ (f e).2 = v := by
  have h1 : (k, v) ∈ dropDupPairs (l.map f) := pyDict_mem h
  have h2 : (k, v) ∈ l.map f := mem_of_mem_eraseDupsBy h1
  rcases List.mem_map.mp h2 with ⟨e, he, hfe⟩
  exact ⟨e, he, by rw [hfe], by rw [hfe]⟩

/-- Completeness: every catalog row's key is found. -/
theorem pyDictPairs_present {α : Type} (f : α → String × String) (l : List α)
    {e : α} (he : e ∈ l) :
    ∃ v, pyDict (dropDupPairs (l.map f)) ((f e).1) = some v := by
  have h1 : f e ∈ l.map f := List.mem_map.mpr ⟨e, he, rfl⟩
  obtain ⟨x, hx, hkx⟩ := eraseDupsBy_key_complete id (l.map f) (f e) h1
  have hx2 : x ∈ dropDupPairs (l.map f) := hx
  simp only [id_eq] at hkx
  subst hkx
  exact pyDict_isSome_of_mem (by simpa using hx2)

/-! ## Per-row case analyses of the pipeline stages -/

theorem applyGuardRail_cases (mapping : List CatEntry) (k : String) (r : Row) :
    applyGuardRail mapping k r = r ∨
    ∃ c, subcatNormToCat mapping k = some c ∧ c ≠ "" ∧
      applyGuardRail mapping k r = { r with categoria := c } := by
  unfold applyGuardRail
  split
  · exact Or.inl rfl
  · split
    · rename_i c heq
      split
      · exact Or.inl rfl
      · rename_i hc
        exact Or.inr ⟨c, heq, by simpa using hc, rfl⟩
    · exact Or.inl rfl

theorem valApplyCat_cases (mapping : List CatEntry) (k : String) (r : Row) :
    valApplyCat mapping k r = r ∨
    ∃ c, subcatNormToCat mapping k = some c ∧ c ≠ "" ∧
      valApplyCat mapping k r = { r with categoria := c } := by
  unfold valApplyCat
  split
  · rename_i c heq
    split
    · exact Or.inl rfl
    · rename_i hc
      exact Or.inr ⟨c, heq, by simpa using hc, rfl⟩
  · exact Or.inl rfl

theorem applyDet_cases (mapping : List CatEntry) (r : Row) :
    (r.payload = none ∧ applyDet mapping r = r) ∨
    ∃ e, r.payload = some e ∧
      applyDet mapping r =
        applyGuardRail mapping (normText e.novaSubCat)
          { r with
            subcat := e.novaSubCat
            acao := some (if stripLower e.novaSubCat == "excluir" then "Excluir" else "Corrigir")
            fonte := some "catalogo"
            confianca := some (99 / 100 : ℚ) } := by
  rcases hp : r.payload with _ | e
  · left
    refine ⟨rfl, ?_⟩
    unfold applyDet
    rw [hp]
  · right
    refine ⟨e, rfl, ?_⟩
    unfold applyDet
    rw [hp]

/-- Stage 2 never matches: the haystack is assembled from the
single-character column names `"N"`, `"o"`, `"m"`, `"e"` (the source iterates
over the characters of the string `"Nome"`), all of which are absent, so it
is whitespace only and normalizes to the empty string, which contains no
nonempty catalog key. -/
theorem containsRule_none (pairs : List (String × String)) (r : Row) :
    containsRule pairs r = none := by
  unfold containsRule
  by_cases h : r.acao.isNone
  · rw [if_pos h]
    have hhay : containsHayN r = "" := rfl
    rw [hhay]
    rw [List.find?_eq_none.mpr]
    · rfl
    · intro p _
      by_cases hp : p.1 = ""
      · simp [hp]
      · have hpd : p.1.data ≠ [] := by
          intro hnil
          exact hp (by cases hpdat : p.1 with | mk l => simp_all)
        have hocc : occursIn p.1.data ("" : String).data = false := by
          unfold occursIn
          rcases hpat : p.1.data with _ | ⟨c, cs⟩
          · exact absurd hpat hpd
          · simp
        simp [hocc]
  · rw [if_neg h]

theorem applyContains_eq (mapping : List CatEntry) (r : Row) :
    applyContains mapping r = { r with novaContains := none } := by
  unfold applyContains
  rw [containsRule_none]
  rcases ha : r.acao with _ | a
  · simp only [ha]
  · simp only [ha]

theorem validatorRow_cases (simf : SimFun) (mapping : List CatEntry) (lo : ℚ) (r : Row) :
    validatorRow simf mapping lo r = r ∨
    ((r.fonte = some "catalogo" ∨ r.fonte = some "catalogo-contains") ∧
     ∃ conf, validatorRow simf mapping lo r =
        { r with acao := some "Verificar", fonte := some "semantico-validador",
                 confianca := some conf }) ∨
    ((r.fonte = some "catalogo" ∨ r.fonte = some "catalogo-contains") ∧
     ∃ predNorm novaPredRaw conf,
        origNormToNew mapping predNorm = some novaPredRaw ∧ novaPredRaw ≠ "" ∧
        validatorRow simf mapping lo r =
          valApplyCat mapping (valGuardKNorm mapping predNorm (pyStrip novaPredRaw))
            { r with
              subcat := pyStrip novaPredRaw
              acao := some "Corrigir"
              fonte := some "semantico-validador"
              confianca := some conf }) := by
  unfold validatorRow
  by_cases h1 : (r.fonte == some "catalogo" || r.fonte == some "catalogo-contains") = true
  · rw [if_pos h1]
    by_cases h2 : (r.nome == "" || ["nan", "none", ""].contains (stripLower r.nome)) = true
    · rw [if_pos h2]
      exact Or.inl rfl
    · rw [if_neg h2]
      split
      · exact Or.inl rfl
      · rename_i novaPredRaw hf
        by_cases h3 : (novaPredRaw == "") = true
        · rw [if_pos h3]
          exact Or.inl rfl
        · rw [if_neg h3]
          by_cases h4 : pyLower (pyStrip novaPredRaw) ≠ stripLower r.subcat
          · rw [if_pos h4]
            by_cases h5 : lo ≤ (valPred simf mapping r).2 ∨
                (isProblematicSubcat r = true ∧ (35 / 100 : ℚ) ≤ (valPred simf mapping r).2)
            · rw [if_pos h5]
              exact Or.inr (Or.inr ⟨by simpa using h1, (valPred simf mapping r).1, novaPredRaw,
                round4 (valPred simf mapping r).2, hf, by simpa using h3, rfl⟩)
            · rw [if_neg h5]
              by_cases h6 : isProblematicSubcat r = true ∧
                  (valPred simf mapping r).2 < (35 / 100 : ℚ)
              · rw [if_pos h6]
                exact Or.inr (Or.inl ⟨by simpa using h1, round4 (valPred simf mapping r).2, rfl⟩)
              · rw [if_neg h6]
                exact Or.inl rfl
          · rw [if_neg h4]
            exact Or.inl rfl
  · rw [if_neg h1]
    exact Or.inl rfl

theorem validatorRow_skip {simf : SimFun} {mapping : List CatEntry} {lo : ℚ} {r : Row}
    (h : r.fonte ≠ some "catalogo" ∧ r.fonte ≠ some "catalogo-contains") :
    validatorRow simf mapping lo r = r := by
  unfold validatorRow
  rw [if_neg]
  simp only [Bool.or_eq_true, beq_iff_eq]
  rintro (h1 | h2)
  · exact h.1 h1
  · exact h.2 h2

theorem inferRow_cases (simf : SimFun) (mapping : List CatEntry) (lo : ℚ) (r : Row) :
    inferRow simf mapping lo r = r ∨
    (r.acao = none ∧ ∃ conf, inferRow simf mapping lo r =
        { r with acao := some "Manter", fonte := some "nenhum", confianca := some conf }) ∨
    (r.acao = none ∧ ∃ e0 conf, e0 ∈ mapping ∧
        mapping.find? (fun e => e.kNova == (inferPred simf mapping r).1) = some e0 ∧
        inferRow simf mapping lo r =
          { r with
            subcat := e0.novaSubCat
            acao := some "Inferir"
            fonte := some "semantico"
            confianca := some conf
            categoria := e0.categoriaOficial }) := by
  unfold inferRow
  by_cases ha : r.acao.isNone
  · rw [if_pos ha]
    have hacao : r.acao = none := Option.isNone_iff_eq_none.mp ha
    by_cases hq : normText (inferBag r) = ""
    · rw [if_pos hq]
      exact Or.inr (Or.inl ⟨hacao, 0, rfl⟩)
    · rw [if_neg hq]
      by_cases hlo : lo ≤ (inferPred simf mapping r).2
      · rw [if_pos hlo]
        split
        · rename_i e0 hfind
          exact Or.inr (Or.inr ⟨hacao, e0, round4 (inferPred simf mapping r).2,
            List.mem_of_find?_eq_some hfind, hfind, rfl⟩)
        · exact Or.inl rfl
      · rw [if_neg hlo]
        exact Or.inr (Or.inl ⟨hacao, round4 (inferPred simf mapping r).2, rfl⟩)
  · rw [if_neg ha]
    exact Or.inl rfl

theorem applyAddr_cases (r : Row) :
    (addrExcl r.endereco = false ∧ applyAddr r = r) ∨
    (addrExcl r.endereco = true ∧ applyAddr r =
      { r with subcat := "Excluir", acao := some "Excluir",
               fonte := some "regra-endereco", confianca := some (1 : ℚ) }) := by
  unfold applyAddr
  by_cases h : addrExcl r.endereco = true
  · rw [if_pos h]
    exact Or.inr ⟨h, rfl⟩
  · rw [if_neg h]
    exact Or.inl ⟨by simpa using h, rfl⟩

theorem fillIntermediaria_proj (r : Row) :
    (fillIntermediaria r).id = r.id ∧ (fillIntermediaria r).nome = r.nome ∧
    (fillIntermediaria r).endereco = r.endereco ∧
    (fillIntermediaria r).categoria = r.categoria ∧
    (fillIntermediaria r).subcat = r.subcat ∧
    (fillIntermediaria r).catOriginal = r.catOriginal ∧
    (fillIntermediaria r).subcatOriginal = r.subcatOriginal ∧
    (fillIntermediaria r).acao = r.acao ∧
    (fillIntermediaria r).fonte = r.fonte ∧
    (fillIntermediaria r).confianca = r.confianca := by
  unfold fillIntermediaria
  split <;> exact ⟨rfl, rfl, rfl, rfl, rfl, rfl, rfl, rfl, rfl, rfl⟩

theorem fillIntermediaria_dedupKey (r : Row) :
    dedupKey (fillIntermediaria r) = dedupKey r := by
  unfold fillIntermediaria
  split <;> rfl

theorem mem_mergeCatalog {mapping : List CatEntry} {r x : Row}
    (h : x ∈ mergeCatalog mapping r) :
    x = r ∨ ∃ e ∈ mapping, x = { r with payload := some e } := by
  unfold mergeCatalog at h
  split at h
  · left
    simpa using h
  · right
    rcases List.mem_map.mp h with ⟨e, he, rfl⟩
    exact ⟨e, (List.mem_filter.mp he).1, rfl⟩

theorem mem_finalOf {simf : SimFun} {mapping : List CatEntry} {rows : List RowIn}
    {hi lo : ℚ} {r : Row}
    (h : r ∈ finalOf (processDataframe simf mapping rows hi lo)) :
    ∃ r0 ∈ annotatedRows simf mapping rows lo, r = fillIntermediaria r0 := by
  unfold processDataframe finalOf at h
  by_cases hd : detAny mapping rows = true
  · rw [if_pos hd] at h
    have h2 : r ∈ (dedupRows (annotatedRows simf mapping rows lo)).map fillIntermediaria := h
    rcases List.mem_map.mp h2 with ⟨r0, hr0, rfl⟩
    exact ⟨r0, mem_of_mem_eraseDupsBy hr0, rfl⟩
  · rw [if_neg hd] at h
    simp at h

theorem mem_annotatedRows {simf : SimFun} {mapping : List CatEntry} {rows : List RowIn}
    {lo : ℚ} {r : Row} (h : r ∈ annotatedRows simf mapping rows lo) :
    ∃ r0 ∈ rows, ∃ rm ∈ mergeCatalog mapping (prepRow r0),
      r = applyAddr (inferRow simf mapping lo (validatorRow simf mapping lo
        (applyContains mapping (applyDet mapping rm)))) := by
  unfold annotatedRows stage1 containsStage validatorStage inferStage addrStage at h
  rcases List.mem_map.mp h with ⟨r4, hr4, rfl⟩
  rcases List.mem_map.mp hr4 with ⟨r3, hr3, rfl⟩
  rcases List.mem_map.mp hr3 with ⟨r2, hr2, rfl⟩
  rcases List.mem_map.mp hr2 with ⟨r1, hr1, rfl⟩
  rcases List.mem_map.mp hr1 with ⟨rm0, hrm0, rfl⟩
  rcases List.mem_flatMap.mp hrm0 with ⟨rp, hrp, hr1m⟩
  rcases List.mem_map.mp hrp with ⟨r0, hr0, rfl⟩
  exact ⟨r0, hr0, rm0, hr1m, rfl⟩

/-! ## Invariant: deterministic and address-rule rows carry the sentinel
action whenever they carry the sentinel subcategory -/

/-- Sources whose rows still have the subcategory/action pair the
deterministic stages or the address rule assigned together. -/
def detSource (r : Row) : Prop :=
  r.fonte = some "catalogo" ∨ r.fonte = some "catalogo-contains" ∨
  r.fonte = some "regra-endereco"

/-- Claim C3's property, restricted to `detSource` rows. -/
def sentinelOk (r : Row) : Prop :=
  detSource r → stripLower r.subcat = "excluir" → r.acao = some "Excluir"

theorem detSource_ne {r : Row} {s : String} (hf : r.fonte = some s)
    (h1 : s ≠ "catalogo") (h2 : s ≠ "catalogo-contains") (h3 : s ≠ "regra-endereco") :
    ¬ detSource r := by
  intro h
  rcases h with hx | hx | hx <;> rw [hf] at hx
  · exact h1 (Option.some.inj hx)
  · exact h2 (Option.some.inj hx)
  · exact h3 (Option.some.inj hx)

theorem sentinelOk_prep (r0 : RowIn) : sentinelOk (prepRow r0) := by
  intro hf
  rcases hf with h | h | h <;> exact absurd h (by simp [prepRow])

theorem sentinelOk_merge {mapping : List CatEntry} {r x : Row}
    (hx : x ∈ mergeCatalog mapping r) (h : sentinelOk r) : sentinelOk x := by
  rcases mem_mergeCatalog hx with rfl | ⟨e, _, rfl⟩
  · exact h
  · intro hf hsub
    exact h hf hsub

theorem sentinelOk_applyDet {mapping : List CatEntry} {r : Row}
    (h : sentinelOk r) : sentinelOk (applyDet mapping r) := by
  rcases applyDet_cases mapping r with ⟨_, he⟩ | ⟨e, _, he⟩
  · rw [he]; exact h
  · rw [he]
    rcases applyGuardRail_cases mapping (normText e.novaSubCat)
        { r with
          subcat := e.novaSubCat
          acao := some (if stripLower e.novaSubCat == "excluir" then "Excluir" else "Corrigir")
          fonte := some "catalogo"
          confianca := some (99 / 100 : ℚ) } with hg | ⟨c, _, _, hg⟩ <;>
      rw [hg] <;>
      · intro _ hsub
        have hsub2 : stripLower e.novaSubCat = "excluir" := hsub
        show some (if stripLower e.novaSubCat == "excluir" then "Excluir" else "Corrigir") =
          some "Excluir"
        rw [if_pos (by simp [hsub2])]

theorem sentinelOk_applyContains {mapping : List CatEntry} {r : Row}
    (h : sentinelOk r) : sentinelOk (applyContains mapping r) := by
  rw [applyContains_eq]
  intro hf hsub
  exact h hf hsub

theorem sentinelOk_validator {simf : SimFun} {mapping : List CatEntry} {lo : ℚ} {r : Row}
    (h : sentinelOk r) : sentinelOk (validatorRow simf mapping lo r) := by
  rcases validatorRow_cases simf mapping lo r with he | ⟨_, conf, he⟩ |
    ⟨_, predNorm, npr, conf, _, _, he⟩
  · rw [he]; exact h
  · rw [he]
    intro hf _
    exact absurd hf (detSource_ne rfl (by decide) (by decide) (by decide))
  · rw [he]
    rcases valApplyCat_cases mapping (valGuardKNorm mapping predNorm (pyStrip npr))
        { r with
          subcat := pyStrip npr
          acao := some "Corrigir"
          fonte := some "semantico-validador"
          confianca := some conf } with hg | ⟨c, _, _, hg⟩ <;>
      rw [hg] <;>
      · intro hf _
        exact absurd hf (detSource_ne rfl (by decide) (by decide) (by decide))

theorem sentinelOk_infer {simf : SimFun} {mapping : List CatEntry} {lo : ℚ} {r : Row}
    (h : sentinelOk r) : sentinelOk (inferRow simf mapping lo r) := by
  rcases inferRow_cases simf mapping lo r with he | ⟨_, conf, he⟩ |
    ⟨_, e0, conf, _, _, he⟩ <;> rw [he]
  · exact h
  · intro hf _
    exact absurd hf (detSource_ne rfl (by decide) (by decide) (by decide))
  · intro hf _
    exact absurd hf (detSource_ne rfl (by decide) (by decide) (by decide))

theorem sentinelOk_addr {r : Row} (h : sentinelOk r) : sentinelOk (applyAddr r) := by
  rcases applyAddr_cases r with ⟨_, he⟩ | ⟨_, he⟩ <;> rw [he]
  · exact h
  · intro _ _
    rfl

theorem annotated_sentinelOk (simf : SimFun) (mapping : List CatEntry)
    (rows : List RowIn) (lo : ℚ) :
    ∀ r ∈ annotatedRows simf mapping rows lo, sentinelOk r := by
  intro r hr
  obtain ⟨r0, _, rm, hrm, rfl⟩ := mem_annotatedRows hr
  exact sentinelOk_addr (sentinelOk_infer (sentinelOk_validator
    (sentinelOk_applyContains (sentinelOk_applyDet
      (sentinelOk_merge hrm (sentinelOk_prep r0))))))

/-! ## Invariant: the guard rail for stage-assigned rows -/

/-- Catalog well-formedness as guaranteed by `catalog_loader.py` and the
catalog's curation: keys are the normalized labels, each original label maps
to one canonical key, each canonical key belongs to one nonempty official
category, and canonical keys are nonempty. -/
def WFCat (mapping : List CatEntry) : Prop :=
  (∀ e ∈ mapping, e.kOriginal = normText e.subcatOriginal ∧ e.kNova = normText e.novaSubCat) ∧
  (∀ e ∈ mapping, ∀ f ∈ mapping, e.kOriginal = f.kOriginal → e.kNova = f.kNova) ∧
  (∀ e ∈ mapping, ∀ f ∈ mapping, e.kNova = f.kNova → e.categoriaOficial = f.categoriaOficial) ∧
  (∀ e ∈ mapping, e.categoriaOficial ≠ "") ∧
  (∀ e ∈ mapping, e.kNova ≠ "")

/-- Sources whose subcategory was assigned by stages 1, 2, 2.1 or 3, with
the guard rail applied at assignment time. -/
def assignedSource (r : Row) : Prop :=
  r.fonte = some "catalogo" ∨ r.fonte = some "catalogo-contains" ∨
  r.fonte = some "semantico-validador" ∨ r.fonte = some "semantico"

/-- Claim C1's property: for stage-assigned rows the category equals the
official category of the (normalized) subcategory. -/
def guardInv (mapping : List CatEntry) (r : Row) : Prop :=
  assignedSource r →
  ∀ c, subcatNormToCat mapping (normText r.subcat) = some c → r.categoria = c

theorem assignedSource_ne {r : Row} {s : String} (hf : r.fonte = some s)
    (h1 : s ≠ "catalogo") (h2 : s ≠ "catalogo-contains")
    (h3 : s ≠ "semantico-validador") (h4 : s ≠ "semantico") :
    ¬ assignedSource r := by
  intro h
  rcases h with hx | hx | hx | hx <;> rw [hf] at hx
  · exact h1 (Option.some.inj hx)
  · exact h2 (Option.some.inj hx)
  · exact h3 (Option.some.inj hx)
  · exact h4 (Option.some.inj hx)

theorem applyGuardRail_pos {mapping : List CatEntry} {k : String} {c : String}
    (hk : k ≠ "") (hc : subcatNormToCat mapping k = some c) (hcne : c ≠ "") (r : Row) :
    applyGuardRail mapping k r = { r with categoria := c } := by
  unfold applyGuardRail
  rw [if_neg (by simpa using hk), hc]
  show (if (c == "") = true then r else { r with categoria := c }) = { r with categoria := c }
  rw [if_neg (by simpa using hcne)]

theorem valApplyCat_pos {mapping : List CatEntry} {k : String} {c : String}
    (hc : subcatNormToCat mapping k = some c) (hcne : c ≠ "") (r : Row) :
    valApplyCat mapping k r = { r with categoria := c } := by
  unfold valApplyCat
  rw [hc]
  show (if (c == "") = true then r else { r with categoria := c }) = { r with categoria := c }
  rw [if_neg (by simpa using hcne)]

/-- Specializations of the dictionary lemmas to the three catalog dicts. -/
theorem subcatNormToCat_mem {mapping : List CatEntry} {k c : String}
    (h : subcatNormToCat mapping k = some c) :
    ∃ e ∈ mapping, e.kNova = k ∧ e.categoriaOficial = c := by
  have h2 : pyDict (dropDupPairs
      (mapping.map (fun e => (e.kNova, e.categoriaOficial)))) k = some c := h
  obtain ⟨e, he, h1, h2b⟩ := pyDictPairs_mem _ mapping h2
  exact ⟨e, he, h1, h2b⟩

theorem subcatNormToCat_present {mapping : List CatEntry} {e : CatEntry}
    (he : e ∈ mapping) : ∃ c, subcatNormToCat mapping e.kNova = some c := by
  obtain ⟨c, hc⟩ := pyDictPairs_present (fun e => (e.kNova, e.categoriaOficial)) mapping he
  exact ⟨c, hc⟩

theorem origNormToNew_mem {mapping : List CatEntry} {k v : String}
    (h : origNormToNew mapping k = some v) :
    ∃ e ∈ mapping, e.kOriginal = k ∧ e.novaSubCat = v := by
  have h2 : pyDict (dropDupPairs
      (mapping.map (fun e => (e.kOriginal, e.novaSubCat)))) k = some v := h
  obtain ⟨e, he, h1, h2b⟩ := pyDictPairs_mem _ mapping h2
  exact ⟨e, he, h1, h2b⟩

theorem origNormToKNova_mem {mapping : List CatEntry} {k v : String}
    (h : origNormToKNova mapping k = some v) :
    ∃ e ∈ mapping, e.kOriginal = k ∧ e.kNova = v := by
  have h2 : pyDict (dropDupPairs
      (mapping.map (fun e => (e.kOriginal, e.kNova)))) k = some v := h
  obtain ⟨e, he, h1, h2b⟩ := pyDictPairs_mem _ mapping h2
  exact ⟨e, he, h1, h2b⟩

theorem origNormToKNova_present {mapping : List CatEntry} {e : CatEntry}
    (he : e ∈ mapping) : ∃ v, origNormToKNova mapping e.kOriginal = some v := by
  obtain ⟨v, hv⟩ := pyDictPairs_present (fun e => (e.kOriginal, e.kNova)) mapping he
  exact ⟨v, hv⟩

/-- With one official category per canonical key, the lookup determines it. -/
theorem subcatNormToCat_det {mapping : List CatEntry}
    (hcat : ∀ e ∈ mapping, ∀ f ∈ mapping, e.kNova = f.kNova →
      e.categoriaOficial = f.categoriaOficial)
    {e : CatEntry} (he : e ∈ mapping) {c : String}
    (hc : subcatNormToCat mapping e.kNova = some c) : c = e.categoriaOficial := by
  obtain ⟨f, hf, hk, hv⟩ := subcatNormToCat_mem hc
  rw [← hv]
  exact hcat f hf e he hk

theorem subcatNormToCat_lookup {mapping : List CatEntry}
    (hcat : ∀ e ∈ mapping, ∀ f ∈ mapping, e.kNova = f.kNova →
      e.categoriaOficial = f.categoriaOficial)
    {e : CatEntry} (he : e ∈ mapping) :
    subcatNormToCat mapping e.kNova = some e.categoriaOficial := by
  obtain ⟨c, hc⟩ := subcatNormToCat_present he
  rw [hc, subcatNormToCat_det hcat he hc]

/-- A freshly assigned row whose subcategory normalizes to the canonical key
of a catalog entry and whose category was set to that entry's official
category satisfies the guard invariant. -/
theorem guardInv_of_assigned {mapping : List CatEntry}
    (hcat : ∀ e ∈ mapping, ∀ f ∈ mapping, e.kNova = f.kNova →
      e.categoriaOficial = f.categoriaOficial)
    {e : CatEntry} (he : e ∈ mapping) {r : Row}
    (hsub : normText r.subcat = e.kNova) (hcatr : r.categoria = e.categoriaOficial) :
    guardInv mapping r := by
  intro _ c hc
  rw [hsub] at hc
  rw [hcatr, subcatNormToCat_det hcat he hc]

theorem guardInv_prep (mapping : List CatEntry) (r0 : RowIn) :
    guardInv mapping (prepRow r0) := by
  intro hf
  rcases hf with h | h | h | h <;> exact absurd h (by simp [prepRow])

theorem guardInv_applyDet {mapping : List CatEntry} {rm : Row} (hWF : WFCat mapping)
    (hpay : ∀ e, rm.payload = some e → e ∈ mapping)
    (h : guardInv mapping rm) : guardInv mapping (applyDet mapping rm) := by
  obtain ⟨hcons, hfun, hcat, hcne, hkne⟩ := hWF
  rcases applyDet_cases mapping rm with ⟨_, he⟩ | ⟨e, hp, he⟩
  · rw [he]; exact h
  · rw [he]
    have hem : e ∈ mapping := hpay e hp
    have hk : normText e.novaSubCat = e.kNova := (hcons e hem).2.symm
    have hlook : subcatNormToCat mapping (normText e.novaSubCat) = some e.categoriaOficial := by
      rw [hk]; exact subcatNormToCat_lookup hcat hem
    rw [applyGuardRail_pos (by rw [hk]; exact hkne e hem) hlook (hcne e hem)]
    exact guardInv_of_assigned hcat hem (by simpa using hk) rfl

theorem guardInv_applyContains {mapping : List CatEntry} {r : Row}
    (h : guardInv mapping r) : guardInv mapping (applyContains mapping r) := by
  rw [applyContains_eq]
  intro hf c hc
  exact h hf c hc

theorem guardInv_validator {simf : SimFun} {mapping : List CatEntry} {lo : ℚ} {r : Row}
    (hWF : WFCat mapping) (h : guardInv mapping r) :
    guardInv mapping (validatorRow simf mapping lo r) := by
  obtain ⟨hcons, hfun, hcat, hcne, hkne⟩ := hWF
  rcases validatorRow_cases simf mapping lo r with he | ⟨hsrc, conf, he⟩ |
    ⟨hsrc, predNorm, npr, conf, hdict, hne, he⟩
  · rw [he]; exact h
  · rw [he]
    intro _ c hc
    have hsrc2 : assignedSource r := by
      rcases hsrc with h1 | h1
      · exact Or.inl h1
      · exact Or.inr (Or.inl h1)
    exact h hsrc2 c hc
  · rw [he]
    obtain ⟨e1, he1, hk1, hv1⟩ := origNormToNew_mem hdict
    have hsub1 : normText (pyStrip npr) = e1.kNova := by
      rw [normText_pyStrip, ← hv1]
      exact ((hcons e1 he1).2).symm
    have hkguard : valGuardKNorm mapping predNorm (pyStrip npr) = e1.kNova := by
      unfold valGuardKNorm
      obtain ⟨k2, hk2⟩ := origNormToKNova_present he1
      rw [hk1] at hk2
      rw [hk2]
      obtain ⟨e2, he2, hk2a, hk2b⟩ := origNormToKNova_mem hk2
      have hk2nova : k2 = e1.kNova := by
        rw [← hk2b]
        exact hfun e2 he2 e1 he1 (hk2a.trans hk1.symm)
      show (if (k2 == "") = true then normText (pyStrip npr) else k2) = e1.kNova
      rw [if_neg (by simp [hk2nova]; exact hkne e1 he1)]
      exact hk2nova
    rw [hkguard]
    have hlook : subcatNormToCat mapping e1.kNova = some e1.categoriaOficial :=
      subcatNormToCat_lookup hcat he1
    rw [valApplyCat_pos hlook (hcne e1 he1)]
    exact guardInv_of_assigned hcat he1 (by simpa using hsub1) rfl

theorem guardInv_infer {simf : SimFun} {mapping : List CatEntry} {lo : ℚ} {r : Row}
    (hWF : WFCat mapping) (h : guardInv mapping r) :
    guardInv mapping (inferRow simf mapping lo r) := by
  obtain ⟨hcons, hfun, hcat, hcne, hkne⟩ := hWF
  rcases inferRow_cases simf mapping lo r with he | ⟨_, conf, he⟩ |
    ⟨_, e0, conf, he0, hfind, he⟩ <;> rw [he]
  · exact h
  · intro hf
    exact absurd hf (assignedSource_ne rfl (by decide) (by decide) (by decide) (by decide))
  · have hk : e0.kNova = normText e0.novaSubCat := (hcons e0 he0).2
    exact guardInv_of_assigned hcat he0 (by simpa using hk.symm) rfl

theorem guardInv_addr {mapping : List CatEntry} {r : Row}
    (h : guardInv mapping r) : guardInv mapping (applyAddr r) := by
  rcases applyAddr_cases r with ⟨_, he⟩ | ⟨_, he⟩ <;> rw [he]
  · exact h
  · intro hf
    exact absurd hf (assignedSource_ne rfl (by decide) (by decide) (by decide) (by decide))

theorem annotated_guardInv (simf : SimFun) (mapping : List CatEntry)
    (rows : List RowIn) (lo : ℚ) (hWF : WFCat mapping) :
    ∀ r ∈ annotatedRows simf mapping rows lo, guardInv mapping r := by
  intro r hr
  obtain ⟨r0, _, rm, hrm, rfl⟩ := mem_annotatedRows hr
  have hpay : ∀ e, rm.payload = some e → e ∈ mapping := by
    rcases mem_mergeCatalog hrm with rfl | ⟨e, hem, rfl⟩
    · intro e hpe
      exact absurd hpe (by simp [prepRow])
    · intro e2 hpe
      have : some e = some e2 := hpe
      rw [← Option.some.inj this]
      exact hem
  have h0 : guardInv mapping rm := by
    rcases mem_mergeCatalog hrm with rfl | ⟨e, hem, rfl⟩
    · exact guardInv_prep mapping r0
    · intro hf
      rcases hf with h1 | h1 | h1 | h1 <;>
        exact absurd h1 (by simp [prepRow])
  exact guardInv_addr (guardInv_infer hWF (guardInv_validator hWF
    (guardInv_applyContains (guardInv_applyDet hWF hpay h0))))

/-! ## Support lemmas for the address rule, the empty catalog, row counts
and deduplication -/

theorem applyAddr_endereco (r : Row) : (applyAddr r).endereco = r.endereco := by
  rcases applyAddr_cases r with ⟨_, he⟩ | ⟨_, he⟩ <;> rw [he]

theorem applyAddr_of_excl {r : Row} (h : addrExcl r.endereco = true) :
    (applyAddr r).subcat = "Excluir" ∧ (applyAddr r).acao = some "Excluir" ∧
    (applyAddr r).fonte = some "regra-endereco" ∧ (applyAddr r).confianca = some (1 : ℚ) := by
  rcases applyAddr_cases r with ⟨hne, _⟩ | ⟨_, he⟩
  · rw [h] at hne
    cases hne
  · rw [he]
    exact ⟨rfl, rfl, rfl, rfl⟩

theorem mergeCatalog_empty (r : Row) : mergeCatalog [] r = [r] := rfl

theorem detAny_empty (rows : List RowIn) : detAny [] rows = false := by
  unfold detAny
  rw [List.any_eq_false]
  intro r hr
  rcases List.mem_flatMap.mp hr with ⟨rp, hrp, hrm⟩
  rcases List.mem_map.mp hrp with ⟨r0, _, rfl⟩
  rcases mem_mergeCatalog hrm with rfl | ⟨e, hem, _⟩
  · simp [prepRow]
  · simp at hem

theorem semanticMatch_nil (simf : SimFun) (q : String) :
    semanticMatch simf [] q = ("", 0) := rfl

/-- A single merged row per input row when the catalog's original keys are
pairwise distinct. -/
theorem filter_key_length_le {t : List CatEntry} {k : String}
    (hnd : (t.map (fun e => e.kOriginal)).Nodup) :
    (t.filter (fun e => e.kOriginal == k)).length ≤ 1 := by
  induction t with
  | nil => simp
  | cons a t ih =>
    simp only [List.map_cons, List.nodup_cons] at hnd
    by_cases ha : (a.kOriginal == k) = true
    · rw [List.filter_cons, if_pos ha]
      have ht : t.filter (fun e => e.kOriginal == k) = [] := by
        rw [List.filter_eq_nil_iff]
        intro b hb hbk
        apply hnd.1
        have hbe : b.kOriginal = k := by simpa using hbk
        have hae : a.kOriginal = k := by simpa using ha
        rw [hae, ← hbe]
        exact List.mem_map_of_mem (fun e => e.kOriginal) hb
      rw [ht]
      simp
    · rw [List.filter_cons, if_neg ha]
      exact ih hnd.2

theorem mergeCatalog_length {mapping : List CatEntry}
    (hnd : (mapping.map (fun e => e.kOriginal)).Nodup) (r : Row) :
    (mergeCatalog mapping r).length = 1 := by
  have hle : (mapping.filter (fun e => e.kOriginal == r.kSubcatIn)).length ≤ 1 :=
    filter_key_length_le hnd
  unfold mergeCatalog
  rcases hf : mapping.filter (fun e => e.kOriginal == r.kSubcatIn) with _ | ⟨e, es⟩
  · rw [hf]
    rfl
  · have hes : es = [] := by
      rw [hf] at hle
      simpa using hle
    subst hes
    rw [hf]
    rfl

theorem flatMap_length_one {α β : Type} {f : α → List β} {l : List α}
    (h : ∀ a ∈ l, (f a).length = 1) : (l.flatMap f).length = l.length := by
  induction l with
  | nil => rfl
  | cons a t ih =>
    rw [List.flatMap_cons, List.length_append, h a (by simp),
      ih (fun a ha => h a (by simp [ha]))]
    simp only [List.length_cons]
    omega

theorem eraseDupsBy_nil {α β : Type} [DecidableEq β] (k : α → β) :
    eraseDupsBy k ([] : List α) = [] := rfl

theorem inferVocab_empty : inferVocab [] = [] := by
  unfold inferVocab
  rw [show (List.map (fun e => e.novaSubCat) ([] : List CatEntry)) = [] from rfl]
  rw [eraseDupsBy_nil]
  rfl

/-- With an empty catalog and a positive low threshold, stage 3 sends every
still-unset row to `Manter`. -/
theorem inferRow_empty {simf : SimFun} {lo : ℚ} {r : Row} (hlo : 0 < lo)
    (ha : r.acao = none) :
    ∃ conf, inferRow simf [] lo r =
      { r with acao := some "Manter", fonte := some "nenhum", confianca := some conf } := by
  unfold inferRow
  rw [if_pos (by simp [ha])]
  by_cases hq : normText (inferBag r) = ""
  · rw [if_pos hq]
    exact ⟨0, rfl⟩
  · rw [if_neg hq]
    have hsim : (inferPred simf [] r).2 = 0 := by
      unfold inferPred
      rw [inferVocab_empty, semanticMatch_nil]
    rw [if_neg (by rw [hsim]; exact not_le.mpr hlo)]
    exact ⟨round4 (inferPred simf [] r).2, rfl⟩

theorem annotated_empty_catalog (simf : SimFun) (rows : List RowIn) (lo : ℚ)
    (hlo : 0 < lo) :
    ∀ r ∈ annotatedRows simf [] rows lo,
      (r.acao = some "Manter" ∧ r.fonte = some "nenhum") ∨
      (r.acao = some "Excluir" ∧ r.fonte = some "regra-endereco") := by
  intro r hr
  obtain ⟨r0, _, rm, hrm, rfl⟩ := mem_annotatedRows hr
  rcases mem_mergeCatalog hrm with rfl | ⟨e, hem, _⟩
  · have hdet : applyDet [] (prepRow r0) = prepRow r0 := by
      rcases applyDet_cases [] (prepRow r0) with ⟨_, he⟩ | ⟨e, hp, _⟩
      · exact he
      · exact absurd hp (by simp [prepRow])
    rw [hdet, applyContains_eq]
    have hval : validatorRow simf [] lo { prepRow r0 with novaContains := none } =
        { prepRow r0 with novaContains := none } :=
      validatorRow_skip ⟨by simp [prepRow], by simp [prepRow]⟩
    rw [hval]
    obtain ⟨conf, hinf⟩ := @inferRow_empty simf lo
      { prepRow r0 with novaContains := none } hlo (by simp [prepRow])
    rw [hinf]
    rcases applyAddr_cases { { prepRow r0 with novaContains := none } with
        acao := some "Manter", fonte := some "nenhum", confianca := some conf }
      with ⟨_, he⟩ | ⟨_, he⟩ <;> rw [he]
    · exact Or.inl ⟨rfl, rfl⟩
    · exact Or.inr ⟨rfl, rfl⟩
  · simp at hem

theorem final_eq {simf : SimFun} {mapping : List CatEntry} {rows : List RowIn}
    {hi lo : ℚ} (hd : detAny mapping rows = true) :
    finalOf (processDataframe simf mapping rows hi lo) =
      (dedupRows (annotatedRows simf mapping rows lo)).map fillIntermediaria := by
  unfold processDataframe finalOf
  rw [if_pos hd]
  rfl

theorem map_congr_fun {α β : Type} {f g : α → β} {l : List α}
    (h : ∀ a ∈ l, f a = g a) : l.map f = l.map g := by
  induction l with
  | nil => rfl
  | cons a t ih =>
    simp only [List.map_cons, h a (by simp)]
    rw [ih (fun a ha => h a (by simp [ha]))]

/-- The row count of the annotated table equals the input count when the
catalog's original keys are pairwise distinct. -/
theorem annotatedRows_length (simf : SimFun) {mapping : List CatEntry}
    (rows : List RowIn) (lo : ℚ)
    (hnd : (mapping.map (fun e => e.kOriginal)).Nodup) :
    (annotatedRows simf mapping rows lo).length = rows.length := by
  unfold annotatedRows stage1 containsStage validatorStage inferStage addrStage
  simp only [List.length_map]
  rw [flatMap_length_one (fun a _ => mergeCatalog_length hnd a)]
  simp

/-! ## Concrete scenario data

A small catalog and input rows used to instantiate the theorems below.
`rowHelper` matches the catalog exactly, so stage 1 assigns at least one
row and the run reaches the later stages instead of aborting on the
missing `acao` column. -/

/-- Similarity oracle returning 0 everywhere: a TF-IDF model whose query
shares no token with any vocabulary term. -/
def semZero : SimFun := fun _ _ _ => 0

def cabEntry : CatEntry := mkEntry "Cabeleireiro" "Salão de Beleza" "Serviços"

def dupA : CatEntry := mkEntry "Colchoaria" "Colchões" "Casa"

def dupB : CatEntry := mkEntry "Colchoaria" "Colchoaria" "Móveis"

def rowHelper : RowIn :=
  { id := "1", nome := "Helper", endereco := "Rua A", categoria := "Outros",
    subcat := "Cabeleireiro" }

def rowSalao : RowIn :=
  { id := "2", nome := "", endereco := "", categoria := "", subcat := "Salão de Beleza" }

def rowExcl : RowIn :=
  { id := "3", nome := "", endereco := "", categoria := "", subcat := "Excluir" }

def rowAddr : RowIn :=
  { id := "4", nome := "Mercadinho", endereco := "Loja 12, Shopping Center",
    categoria := "", subcat := "" }

def rowDup : RowIn :=
  { id := "5", nome := "", endereco := "", categoria := "", subcat := "Colchoaria" }

/-! ## Claims -/

/-- C2: stage 2, the substring rule, never matches anything.  The source
iterates `for c in ("Nome")`, i.e. over the characters of the string
`"Nome"`, so the haystack is concatenated from the nonexistent columns
`"N"`, `"o"`, `"m"`, `"e"` and is always empty: `_contains_rule` returns
`None` on every row and every catalog, and `applyContains` only records the
empty match.  No record is ever assigned `fonte = "catalogo-contains"`,
contradicting the claimed stage-2 behaviour. -/
theorem c2_contains_stage_dead :
    (∀ r, containsHayN r = "") ∧
    (∀ pairs r, containsRule pairs r = none) ∧
    (∀ mapping r, applyContains mapping r = { r with novaContains := none }) :=
  ⟨fun _ => rfl, containsRule_none, applyContains_eq⟩

/-- C4: the query half of the claim holds — `_semantic_match` over an empty
vocabulary returns `("", 0)` — but a run with an empty catalog does not
degrade to Keep/Verify: stage 1 then matches nothing, the `acao` column is
never created, and `not_mapped = df["acao"].isna()` (line 119) raises a
`KeyError`, aborting the run. -/
theorem c4_empty_vocab (simf : SimFun) (rows : List RowIn) (hi lo : ℚ) (q : String) :
    semanticMatch simf [] q = ("", 0) ∧
    processDataframe simf [] rows hi lo = Except.error keyErrorAcao := by
  refine ⟨semanticMatch_nil simf q, ?_⟩
  unfold processDataframe
  rw [detAny_empty]
  rfl

/-- C6: the text normalizer is idempotent: for every string `x`,
`norm_text (norm_text x) = norm_text x`. -/
theorem c6_norm_text_idempotent (s : String) :
    normText (normText s) = normText s :=
  congrArg String.mk (normTextL_idem s.data)

/-- C5: every record of the final output whose address matches the fixed
keyword regex `\\b(shopping|loja|lj|ponto|conj|conjunto)\\b`
(case-insensitive) carries the exclusion sentinel: subcategory `"Excluir"`,
action `Excluir`, source `regra-endereco`, confidence `1.0` — rule 3.1 runs
after every other stage and discards any earlier decision. -/
theorem c5_address_rule (simf : SimFun) (mapping : List CatEntry) (rows : List RowIn)
    (hi lo : ℚ) (r : Row)
    (hr : r ∈ finalOf (processDataframe simf mapping rows hi lo))
    (ha : addrExcl r.endereco = true) :
    r.subcat = "Excluir" ∧ r.acao = some "Excluir" ∧
    r.fonte = some "regra-endereco" ∧ r.confianca = some 1 := by
  obtain ⟨r0, hr0, rfl⟩ := mem_finalOf hr
  obtain ⟨_, _, r4, _, hprj⟩ :
      ∃ i ∈ rows, ∃ rm ∈ mergeCatalog mapping (prepRow i),
        r0 = applyAddr (inferRow simf mapping lo (validatorRow simf mapping lo
          (applyContains mapping (applyDet mapping rm)))) := mem_annotatedRows hr0
  obtain ⟨_, _, hend, _, hsub, _, _, hacao, hfonte, hconf⟩ := fillIntermediaria_proj r0
  rw [hend, hprj, applyAddr_endereco] at ha
  have hx := applyAddr_of_excl
    (r := inferRow simf mapping lo (validatorRow simf mapping lo
      (applyContains mapping (applyDet mapping r4)))) ha
  refine ⟨?_, ?_, ?_, ?_⟩
  · rw [hsub, hprj]
    exact hx.1
  · rw [hacao, hprj]
    exact hx.2.1
  · rw [hfonte, hprj]
    exact hx.2.2.1
  · rw [hconf, hprj]
    exact hx.2.2.2

/-- Closed instance of `c5_address_rule`: the record with address
`"Loja 12, Shopping Center"` ends excluded by the address rule. -/
theorem c5_address_rule_witness :
    ∃ r ∈ finalOf (processDataframe semZero [cabEntry] [rowHelper, rowAddr] (7/10) (11/20)),
      r.subcat = "Excluir" ∧ r.acao = some "Excluir" ∧
      r.fonte = some "regra-endereco" ∧ r.confianca = some 1 := by
  obtain ⟨r, hr, ha⟩ :
      ∃ r, r ∈ finalOf (processDataframe semZero [cabEntry] [rowHelper, rowAddr] (7/10) (11/20)) ∧
        addrExcl r.endereco = true := by with_unfolding_all decide
  exact ⟨r, hr, c5_address_rule semZero [cabEntry] [rowHelper, rowAddr] (7/10) (11/20) r hr ha⟩

/-- C1 (amended): the guard-rail invariant holds for every final record
whose subcategory was assigned by stage 1, 2, 2.1 or 3 (source `catalogo`,
`catalogo-contains`, `semantico-validador` or `semantico`), over a
well-formed catalog: if the normalized subcategory has an official category
in the catalog's `k_nova → categoria_oficial` map, the record's category
equals it.  The original claim, quantified over *every* final record, is
refuted by `c1_guard_rail_counterexample`: a `Manter` row keeps its
original subcategory and category untouched even when that subcategory is a
catalog canonical label. -/
theorem c1_guard_rail (simf : SimFun) (mapping : List CatEntry) (rows : List RowIn)
    (hi lo : ℚ) (hWF : WFCat mapping) (r : Row)
    (hr : r ∈ finalOf (processDataframe simf mapping rows hi lo))
    (hs : assignedSource r) (c : String)
    (hc : subcatNormToCat mapping (normText r.subcat) = some c) :
    r.categoria = c := by
  obtain ⟨r0, hr0, rfl⟩ := mem_finalOf hr
  have hinv := annotated_guardInv simf mapping rows lo hWF r0 hr0
  obtain ⟨_, _, _, hcat, hsubp, _, _, _, hfonte, _⟩ := fillIntermediaria_proj r0
  rw [hcat]
  refine hinv ?_ c ?_
  · unfold assignedSource at hs ⊢
    rw [hfonte] at hs
    exact hs
  · rw [hsubp] at hc
    exact hc

/-- Counterexample to C1 as stated: the final record for `rowSalao` is a
`Manter` row whose (normalized) subcategory `"salao de beleza"` is the
catalog canonical label owned by `"Serviços"`, yet its category is the
untouched input value `""`. -/
theorem c1_guard_rail_counterexample :
    ∃ r ∈ finalOf (processDataframe semZero [cabEntry] [rowHelper, rowSalao] (7/10) (11/20)),
      r.acao = some "Manter" ∧
      subcatNormToCat [cabEntry] (normText r.subcat) = some "Serviços" ∧
      r.categoria ≠ "Serviços" := by
  with_unfolding_all decide

/-- Closed instance of `c1_guard_rail`: the stage-1 record for `rowHelper`
gets category `"Serviços"`, the official category of its assigned
subcategory. -/
theorem c1_guard_rail_witness :
    ∃ r ∈ finalOf (processDataframe semZero [cabEntry] [rowHelper] (7/10) (11/20)),
      r.categoria = "Serviços" := by
  obtain ⟨r, hr, hs, hc⟩ :
      ∃ r, r ∈ finalOf (processDataframe semZero [cabEntry] [rowHelper] (7/10) (11/20)) ∧
        r.fonte = some "catalogo" ∧
        subcatNormToCat [cabEntry] (normText r.subcat) = some "Serviços" := by
    with_unfolding_all decide
  exact ⟨r, hr, c1_guard_rail semZero [cabEntry] [rowHelper] (7/10) (11/20)
    (by constructor <;> first | decide | constructor <;> decide) r hr (Or.inl hs) "Serviços" hc⟩

/-- C3 (amended): the exclusion-sentinel invariant holds for every final
record whose action/subcategory pair was written by a deterministic stage
or the address rule (source `catalogo`, `catalogo-contains` or
`regra-endereco`): if its subcategory, lowered and stripped, is the
sentinel `"excluir"`, its action is `Excluir`.  The original unrestricted
claim is refuted by `c3_sentinel_counterexample`: an input row whose own
subcategory is literally `"Excluir"` and matches nothing ends as a `Manter`
record that carries the sentinel subcategory. -/
theorem c3_sentinel (simf : SimFun) (mapping : List CatEntry) (rows : List RowIn)
    (hi lo : ℚ) (r : Row)
    (hr : r ∈ finalOf (processDataframe simf mapping rows hi lo))
    (hdet : detSource r) (hsent : stripLower r.subcat = "excluir") :
    r.acao = some "Excluir" := by
  obtain ⟨r0, hr0, rfl⟩ := mem_finalOf hr
  have hok := annotated_sentinelOk simf mapping rows lo r0 hr0
  obtain ⟨_, _, _, _, hsubp, _, _, hacao, hfonte, _⟩ := fillIntermediaria_proj r0
  rw [hacao]
  refine hok ?_ ?_
  · unfold detSource at hdet ⊢
    rw [hfonte] at hdet
    exact hdet
  · rw [hsubp] at hsent
    exact hsent

/-- Counterexample to C3 as stated: the final record for `rowExcl` carries
subcategory `"Excluir"` with action `Manter`. -/
theorem c3_sentinel_counterexample :
    ∃ r ∈ finalOf (processDataframe semZero [cabEntry] [rowHelper, rowExcl] (7/10) (11/20)),
      r.subcat = "Excluir" ∧ r.acao = some "Manter" := by
  with_unfolding_all decide

/-- Closed instance of `c3_sentinel`: the address-rule record for `rowAddr`
carries the sentinel subcategory and action `Excluir`. -/
theorem c3_sentinel_witness :
    ∃ r ∈ finalOf (processDataframe semZero [cabEntry] [rowHelper, rowAddr] (7/10) (11/20)),
      r.acao = some "Excluir" := by
  obtain ⟨r, hr, hf, hsent⟩ :
      ∃ r, r ∈ finalOf (processDataframe semZero [cabEntry] [rowHelper, rowAddr] (7/10) (11/20)) ∧
        r.fonte = some "regra-endereco" ∧ stripLower r.subcat = "excluir" := by
    with_unfolding_all decide
  exact ⟨r, hr, c3_sentinel semZero [cabEntry] [rowHelper, rowAddr] (7/10) (11/20) r hr
    (Or.inr (Or.inr hf)) hsent⟩

/-- C8: deduplication drops exactly the later duplicates of the effective
dedup-key tuple.  At the `drop_duplicates` call the `SubCat_Intermediaria`
column does not yet exist (it is created in step 4), so the effective key
is the other ten subset columns, `dedupKey`; step 4 leaves that key
unchanged.  On any completed run: final records have pairwise-distinct
keys, the final table is an in-order sublist of the finalized annotated
table (first occurrences survive), and every annotated row's key is still
represented. -/
theorem c8_dedup (simf : SimFun) (mapping : List CatEntry) (rows : List RowIn)
    (hi lo : ℚ) (hd : detAny mapping rows = true) :
    ((finalOf (processDataframe simf mapping rows hi lo)).map dedupKey).Nodup ∧
    List.Sublist (finalOf (processDataframe simf mapping rows hi lo))
      ((annotatedRows simf mapping rows lo).map fillIntermediaria) ∧
    (∀ y ∈ annotatedRows simf mapping rows lo,
      ∃ x ∈ finalOf (processDataframe simf mapping rows hi lo), dedupKey x = dedupKey y) := by
  rw [final_eq hd]
  refine ⟨?_, ?_, ?_⟩
  · rw [List.map_map]
    have h1 : (dedupRows (annotatedRows simf mapping rows lo)).map (dedupKey ∘ fillIntermediaria) =
        (dedupRows (annotatedRows simf mapping rows lo)).map dedupKey :=
      map_congr_fun (fun a _ => fillIntermediaria_dedupKey a)
    rw [h1]
    exact eraseDupsBy_nodup_keys dedupKey _
  · exact (eraseDupsBy_sublist dedupKey _).map fillIntermediaria
  · intro y hy
    obtain ⟨x, hx, hkx⟩ := eraseDupsBy_key_complete dedupKey _ y hy
    exact ⟨fillIntermediaria x, List.mem_map.mpr ⟨x, hx, rfl⟩,
      by rw [fillIntermediaria_dedupKey, hkx]⟩

/-- Closed instance of `c8_dedup`: two identical input rows collapse to one
final record. -/
theorem c8_dedup_witness :
    (finalOf (processDataframe semZero [cabEntry] [rowHelper, rowHelper] (7/10) (11/20))).length = 1 ∧
    (((finalOf (processDataframe semZero [cabEntry] [rowHelper, rowHelper] (7/10) (11/20))).map dedupKey).Nodup ∧
     List.Sublist (finalOf (processDataframe semZero [cabEntry] [rowHelper, rowHelper] (7/10) (11/20)))
       ((annotatedRows semZero [cabEntry] [rowHelper, rowHelper] (11/20)).map fillIntermediaria) ∧
     (∀ y ∈ annotatedRows semZero [cabEntry] [rowHelper, rowHelper] (11/20),
       ∃ x ∈ finalOf (processDataframe semZero [cabEntry] [rowHelper, rowHelper] (7/10) (11/20)),
         dedupKey x = dedupKey y)) :=
  ⟨by with_unfolding_all decide,
   c8_dedup semZero [cabEntry] [rowHelper, rowHelper] (7/10) (11/20)
     (by with_unfolding_all decide)⟩

/-- C10 (amended): part (a) of the claim is right — a catalog key shared by
two rows duplicates every matching input record, see
`c10_row_count_counterexample` — but part (b)'s side condition is wrong:
the two catalog rows of that counterexample have pairwise-distinct
(k_original, k_nova, categoria_oficial) triples, yet share `k_original`,
and the stage-1 left merge still duplicates the matching input row.  The
correct condition is distinctness of the `k_original` keys themselves:
then the annotated table has exactly one row per input row. -/
theorem c10_row_count (simf : SimFun) (mapping : List CatEntry) (rows : List RowIn)
    (lo : ℚ) (hnd : (mapping.map (fun e => e.kOriginal)).Nodup) :
    (annotatedRows simf mapping rows lo).length = rows.length :=
  annotatedRows_length simf rows lo hnd

/-- Counterexample to C10's part (b) as stated: `dupA`/`dupB` have distinct
(k_original, k_nova, categoria_oficial) triples but equal `k_original`, and
the single input row yields two annotated rows — which even survive the
final dedup, both reaching the output. -/
theorem c10_row_count_counterexample :
    List.Pairwise (fun e f : CatEntry =>
      (e.kOriginal, e.kNova, e.categoriaOficial) ≠ (f.kOriginal, f.kNova, f.categoriaOficial))
      [dupA, dupB] ∧
    (annotatedRows semZero [dupA, dupB] [rowDup] (11/20)).length = 2 ∧
    (finalOf (processDataframe semZero [dupA, dupB] [rowDup] (7/10) (11/20))).length = 2 := by
  with_unfolding_all decide

/-- Closed instance of `c10_row_count`: with the one-entry catalog the
two-row input keeps exactly two annotated rows. -/
theorem c10_row_count_witness :
    (annotatedRows semZero [cabEntry] [rowHelper, rowSalao] (11/20)).length =
      ([rowHelper, rowSalao] : List RowIn).length :=
  c10_row_count semZero [cabEntry] [rowHelper, rowSalao] (11/20)
    (by with_unfolding_all decide)

/-- C7: catalog loading fails with the loader's `ValueError` exactly when a
required column (original or new subcategory) cannot be resolved through
the header aliases, and an `Except.error` run carries no partial catalog;
it succeeds exactly when both aliases resolve — for the gsheets loader, on
every tab. -/
theorem c7_loader_required_columns :
    (∀ t : PyTable,
      (∃ cs, loadMappingXlsx t = Except.ok cs) ↔
        ((findCol t.headers xlsxOrigAliases).isSome ∧
         (findCol t.headers xlsxNewAliases).isSome)) ∧
    (∀ tabs : List (String × PyTable),
      (∃ cs, loadMappingGsheets tabs = Except.ok cs) ↔
        ∀ p ∈ tabs, (findCol p.2.headers gsOrigAliases).isSome ∧
          (findCol p.2.headers gsNewAliases).isSome) := by
  constructor
  · intro t
    unfold loadMappingXlsx
    rcases ho : findCol t.headers xlsxOrigAliases with _ | co
    · simp [ho]
    · rcases hn : findCol t.headers xlsxNewAliases with _ | cn
      · simp [ho, hn]
      · simp [ho, hn]
  · intro tabs
    induction tabs with
    | nil => simp [loadMappingGsheets]
    | cons p rest ih =>
      obtain ⟨tab, t⟩ := p
      rcases ho : findCol t.headers gsOrigAliases with _ | co
      · constructor
        · rintro ⟨cs, hcs⟩
          rw [loadMappingGsheets, ho] at hcs
          cases hcs
        · intro hall
          have h1 := (hall (tab, t) (by simp)).1
          simp [ho] at h1
      · rcases hn : findCol t.headers gsNewAliases with _ | cn
        · constructor
          · rintro ⟨cs, hcs⟩
            rw [loadMappingGsheets, ho, hn] at hcs
            cases hcs
          · intro hall
            have h1 := (hall (tab, t) (by simp)).2
            simp [hn] at h1
        · have heq : loadMappingGsheets ((tab, t) :: rest) =
              match loadMappingGsheets rest with
              | Except.ok cs => Except.ok
                  ((t.rows.map (fun row => mkEntry (cellOf row co) (cellOf row cn) tab)) ++ cs)
              | Except.error e => Except.error e := by
            rw [loadMappingGsheets, ho, hn]
          rcases hrest : loadMappingGsheets rest with e | cs0
          · rw [hrest] at heq
            constructor
            · rintro ⟨cs, hcs⟩
              rw [heq] at hcs
              cases hcs
            · intro hall
              obtain ⟨cs, hcs⟩ := ih.mpr (fun q hq => hall q (List.mem_cons_of_mem _ hq))
              rw [hrest] at hcs
              cases hcs
          · rw [hrest] at heq
            constructor
            · intro _ q hq
              rcases List.mem_cons.mp hq with rfl | hq2
              · exact ⟨by simp [ho], by simp [hn]⟩
              · exact ih.mp ⟨cs0, hrest⟩ q hq2
            · intro _
              exact ⟨_, heq⟩

/-- C9: the pipeline does not mutate its inputs: run from any heap state,
the stateful rendering returns exactly the pure function's value on the
caller's tables and leaves the `dfIn` and `mappingDf` cells untouched —
only the callee's working copy `work` is written, so two invocations over
the same inputs cannot interfere. -/
theorem c9_no_mutation (simf : SimFun) (hi lo : ℚ) (s : PipeState) :
    ((processDataframeSt simf hi lo).run s).1 =
      processDataframe simf s.mappingDf s.dfIn hi lo ∧
    ((processDataframeSt simf hi lo).run s).2.dfIn = s.dfIn ∧
    ((processDataframeSt simf hi lo).run s).2.mappingDf = s.mappingDf := by
  have hrun : (processDataframeSt simf hi lo).run s =
      (if detAny s.mappingDf s.dfIn then
        (Except.ok (mkOut hi (dedupRows (annotatedRows simf s.mappingDf s.dfIn lo))),
         { s with work := dedupRows (annotatedRows simf s.mappingDf s.dfIn lo) })
      else
        (Except.error keyErrorAcao,
         { s with work := stage1 s.mappingDf (s.dfIn.map prepRow) })) := by
    by_cases hd : detAny s.mappingDf s.dfIn = true
    · simp [processDataframeSt, StateT.run, bind, StateT.bind, modify, modifyGet,
        MonadStateOf.modifyGet, StateT.modifyGet, get, getThe, MonadStateOf.get,
        StateT.get, pure, StateT.pure, hd, annotatedRows]
    · simp [processDataframeSt, StateT.run, bind, StateT.bind, modify, modifyGet,
        MonadStateOf.modifyGet, StateT.modifyGet, get, getThe, MonadStateOf.get,
        StateT.get, pure, StateT.pure, hd]
  rw [hrun]
  unfold processDataframe
  by_cases hd : detAny s.mappingDf s.dfIn = true
  · rw [if_pos hd, if_pos hd]
    exact ⟨rfl, rfl, rfl⟩
  · rw [if_neg hd, if_neg hd]
    exact ⟨rfl, rfl, rfl⟩

end Micro
